import Mathlib

/-!
Vegeta: multi-rate attack orchestration and rate-partitioned reporting.

A shallow embedding of `src/lib/reporters.go` (the rate partitioner
`slicesPerAttackRate` and the CSV reporter `ReportCSV`) and of `src/attack.go`
(the per-pass function `attack`, `writeResults`, the function `attackCmd` with its
orchestrator loop, and the flag values `rateList` and `headers` with their `Set`
methods), followed by theorems about them.

Conventions of the embedding:
* Go slices are Lean lists; Go `int` indices that range over `0 .. len` are `Nat`
  (they cannot overflow: a slice length fits an `int`).
* `uint64` rates are `Nat`; the code only compares them for equality, so the
  64-bit bound plays no role.
* `time.Duration` (an `int64` count of nanoseconds) is `Int`.
* A Go `(value, error)` result is `Except String value`, the string being the
  error's message.
* The fields `from` and `to` of `ResultGroup` are spelled `from_` and `to_`,
  both words being reserved in Lean.
-/

namespace Vegeta

/-! ## Data model -/

/-- Modelled from the spec: the type `Result` is declared in the library's results
file, which is not among the sources; the spec lists its attributes (timestamp,
latency, bytes-out, bytes-in, status code, error text, originating rate). The code
embedded here reads only `Rate`. -/
structure Result where
  Timestamp : Int
  Latency : Int
  BytesOut : Nat
  BytesIn : Nat
  Code : Nat
  Error : String
  Rate : Nat
deriving DecidableEq, Repr

/-- The struct `ResultGroup` of reporters.go: a span `[from_, to_)` of indices
and a rate. -/
structure ResultGroup where
  from_ : Nat
  to_ : Nat
  rate : Nat
deriving DecidableEq, Repr

/-! ## The rate partitioner -/

/-- The `for i, result := range results` loop of `slicesPerAttackRate`, started at
index `i` on the still unread suffix of `results`. The state is the pair of the
local variables `resultGroups` (closed groups so far) and `resultGroup` (the running
group). A fresh `ResultGroup{}` has `to = 0` until the group is closed. -/
def slicesLoop : List Result → Nat → List ResultGroup → ResultGroup →
    List ResultGroup × ResultGroup
  | [], _, resultGroups, resultGroup => (resultGroups, resultGroup)
  | result :: rest, i, resultGroups, resultGroup =>
    if result.Rate ≠ resultGroup.rate then
      slicesLoop rest (i + 1)
        (resultGroups ++ [{ resultGroup with to_ := i }])
        { from_ := i, to_ := 0, rate := result.Rate }
    else
      slicesLoop rest (i + 1) resultGroups resultGroup

/-- The function `slicesPerAttackRate` of reporters.go. -/
def slicesPerAttackRate (results : List Result) : List ResultGroup :=
  match results with
  | [] => []
  | first :: _ =>
    let st := slicesLoop results 0 [] { from_ := 0, to_ := 0, rate := first.Rate }
    st.1 ++ [{ st.2 with to_ := results.length }]

/-- The groups that the loop of `slicesPerAttackRate` still closes, as a plain
structural recursion: `closeRuns rest i g` lists, in order, the groups closed while
reading the suffix `rest` from index `i` with running group `g`, the last one being
closed at the end of the sequence. It is shown equal to the accumulator loop
(`slicesLoop_closeRuns`) and is used in proofs only. -/
def closeRuns : List Result → Nat → ResultGroup → List ResultGroup
  | [], i, g => [{ g with to_ := i }]
  | r :: rest, i, g =>
    if r.Rate ≠ g.rate then
      { g with to_ := i } :: closeRuns rest (i + 1) { from_ := i, to_ := 0, rate := r.Rate }
    else
      closeRuns rest (i + 1) g

/-- Spans that tile the index range `[a, b)`: each group starts where the previous
one stopped, the first at `a`, the last stops at `b`, and none is empty. -/
def Tiles : Nat → List ResultGroup → Nat → Prop
  | a, [], b => a = b
  | a, g :: gs, b => g.from_ = a ∧ a < g.to_ ∧ Tiles g.to_ gs b

/-- Whether index `k` lies in the span of group `g`. -/
def ResultGroup.covers (k : Nat) (g : ResultGroup) : Bool :=
  decide (g.from_ ≤ k) && decide (k < g.to_)

/-- A list of rates with every run of adjacent equal entries merged into one. -/
def mergeAdjacent : List Nat → List Nat
  | [] => []
  | [a] => [a]
  | a :: b :: l => if a = b then mergeAdjacent (b :: l) else a :: mergeAdjacent (b :: l)

/-- A successful result tagged with the given rate, all other attributes zero;
used to build concrete result sequences. -/
def resultAt (rate : Nat) : Result :=
  { Timestamp := 0, Latency := 0, BytesOut := 0, BytesIn := 0, Code := 200,
    Error := "", Rate := rate }

/-- The entries of a schedule whose pass produced at least one result, in schedule
order (`passes` lists the per-pass outputs, aligned with `schedule`). -/
def effectiveSchedule (schedule : List Nat) (passes : List (List Result)) : List Nat :=
  ((schedule.zip passes).filter (fun sp => !sp.2.isEmpty)).map Prod.fst

/-! ## The CSV reporter -/

/-- Go's slice expression `s[low:high]` on a slice: `none` stands for the run-time
panic raised when the bounds are out of range. Go checks `high` against the
capacity, which is at least the length; checking against the length, as here, can
only add panics. -/
def goSlice {α : Type} (s : List α) (low high : Nat) : Option (List α) :=
  if low ≤ high ∧ high ≤ s.length then some ((s.drop low).take (high - low)) else none

/-- The `header` record of `ReportCSV`. -/
def csvHeader : List String :=
  ["rate", "mean_ms", "p50_ms", "p95_ms", "p99_ms", "max_ms", "bytesIn_B", "bytesOut_B",
    "success_percent"]

/-- The `for _, resultGroup := range resultGroups` loop of `ReportCSV`. The state
`w` is the list of records handed to the CSV writer so far. `NewMetrics` and
`Metrics.Csv` live in the library's metrics file, which is not among the sources:
they are parameters. -/
def reportLoop {Metrics : Type} (NewMetrics : List Result → Metrics)
    (Csv : Metrics → Nat → List String) (results : List Result) :
    List ResultGroup → List (List String) → Option (List (List String))
  | [], w => some w
  | resultGroup :: rest, w =>
    match goSlice results resultGroup.from_ resultGroup.to_ with
    | none => none
    | some slice => reportLoop NewMetrics Csv results rest
        (w ++ [Csv (NewMetrics slice) resultGroup.rate])

/-- The function `ReportCSV` of reporters.go, up to the encoding of records as
bytes, which is the work of the standard CSV writer: the value is the list of
records written, in order, or `none` if slicing panics. Errors of `w.Write` are
ignored by the source. -/
def ReportCSV {Metrics : Type} (NewMetrics : List Result → Metrics)
    (Csv : Metrics → Nat → List String) (results : List Result) :
    Option (List (List String)) :=
  reportLoop NewMetrics Csv results (slicesPerAttackRate results) [csvHeader]

/-! ## The attack orchestrator -/

/-- Go's `http.Header`, a map from a key to its list of values, as an association
list. -/
abbrev Header := List (String × List String)

/-- Modelled from the spec: the type of one target is declared in the library, which
is not among the sources; the spec describes it as a request template with a
method, a URL, headers and a body. -/
structure Target where
  Method : String
  URL : String
  Body : String
  Header : Header
deriving DecidableEq, Repr

/-- Modelled from the spec: `Targets.SetHeader` is defined in the library's targets
file, which is not among the sources. The spec says that a pass "applies the
configured header set to every target" and that the core changes a target in no
other way: each target of the list, in place, gets the header set. -/
def Targets.SetHeader (targets : List Target) (hdr : Header) : List Target :=
  targets.map (fun t => { t with Header := hdr })

/-- One call of the external attack engine `vegeta.Attack`: its arguments and the
results it returned. -/
structure EngineCall where
  targets : List Target
  rate : Nat
  duration : Int
  output : List Result
deriving DecidableEq, Repr

/-- The mutable state the orchestrator acts on.
* `targets`: the target list behind the pointer `targets` of `attack`;
* `redirects`, `timeout`: the settings of `vegeta.DefaultAttacker`;
* `shuffles`: the seeds of the calls of `Targets.Shuffle`, in order;
* `fileCalls`: the calls `file(name, create)`, in order;
* `engineCalls`: the calls of `vegeta.Attack`, in order;
* `written`: the invocations of `writeResults`, in order, each with the sequence
  it was handed and the output name.
Log lines (`log.Printf`) are a side channel and are not recorded. -/
structure World where
  targets : List Target
  redirects : Int
  timeout : Int
  shuffles : List Int
  fileCalls : List (String × Bool)
  engineCalls : List EngineCall
  written : List (List Result × String)
deriving DecidableEq, Repr

/-- The external collaborators, whose code is outside the repository's sources or
outside the program; each may depend on the whole state, hence on the history of
calls.
* `unixNano`: the value of `time.Now().UnixNano()`;
* `Shuffle`: `Targets.Shuffle(seed)`, an unspecified reordering;
* `file`: `file(name, create)`, giving `some cause` when opening fails;
* `Attack`: the engine `vegeta.Attack(targets, rate, duration)`;
* `Encode`: `results.Encode(out)`, giving `some message` when encoding fails. -/
structure Env where
  unixNano : World → Int
  Shuffle : Int → List Target → List Target
  file : World → String → Bool → Option String
  Attack : World → List Target → Nat → Int → List Result
  Encode : World → List Result → Option String

def errRatePrefix : String := "Rate(s): "
def errDurationPrefix : String := "Duration: "
def errOutputFilePrefix : String := "Output file: "
def errTargetsFilePrefix : String := "Targets file: "
def errOrderingPrefix : String := "Ordering: "
def errReportingPrefix : String := "Reporting: "

/-- The `switch ordering` of `attack`: `none` is the `default` branch. -/
def applyOrdering (env : Env) (ordering : String) (w : World) : Option World :=
  if ordering = "random" then
    some { w with
      targets := env.Shuffle (env.unixNano w) w.targets
      shuffles := w.shuffles ++ [env.unixNano w] }
  else if ordering = "sequential" then
    some w
  else
    none

/-- The `if output != "stdout"` block of `attack`: the output file is opened for
writing, and a failure is returned as an error. -/
def openOutput (env : Env) (output : String) (w : World) : Except String World :=
  if output ≠ "stdout" then
    match env.file w output true with
    | some err =>
      .error (errOutputFilePrefix ++ "(" ++ output ++ "): " ++ err)
    | none => .ok { w with fileCalls := w.fileCalls ++ [(output, true)] }
  else
    .ok w

/-- The settings made on `vegeta.DefaultAttacker` by `attack`: the redirect limit
always, the timeout only if it is positive. -/
def configureAttacker (redirects timeout : Int) (w : World) : World :=
  let w1 := { w with redirects := redirects }
  if timeout > 0 then { w1 with timeout := timeout } else w1

/-- The call `vegeta.Attack(*targets, rate, duration)` of `attack`: the engine's
answer, and the state with the call appended to the log. -/
def callEngine (env : Env) (rate : Nat) (duration : Int) (w : World) :
    List Result × World :=
  let results := env.Attack w w.targets rate duration
  (results,
    { w with
      engineCalls := w.engineCalls ++
        [{ targets := w.targets, rate := rate, duration := duration, output := results }] })

/-- The function `attack` of attack.go. The pointer `targets` is the `targets`
component of the state. The value is the pair returned by the Go function (an
error, or the results) together with the state after the call. -/
def attack (env : Env) (rate : Nat) (duration : Int) (ordering output : String)
    (redirects : Int) (timeout : Int) (hdr : Header) (previousResults : List Result)
    (w : World) : Except String (List Result) × World :=
  if rate = 0 then
    (.error (errRatePrefix ++ "can't be zero"), w)
  else if duration = 0 then
    (.error (errDurationPrefix ++ "can't be zero"), w)
  else
    let w1 := { w with targets := Targets.SetHeader w.targets hdr }
    match applyOrdering env ordering w1 with
    | none => (.error (errOrderingPrefix ++ "`" ++ ordering ++ "` is invalid"), w1)
    | some w2 =>
      match openOutput env output w2 with
      | .error err => (.error err, w2)
      | .ok w3 =>
        let engine := callEngine env rate duration (configureAttacker redirects timeout w3)
        (.ok (previousResults ++ engine.1), engine.2)

/-- The function `writeResults` of attack.go: the output is opened (the error of
`file` is dropped by the source) and the results are encoded to it; the value is
the error of `Encode`, if any. -/
def writeResults (env : Env) (results : List Result) (output : String) (w : World) :
    Option String × World :=
  let w1 := { w with fileCalls := w.fileCalls ++ [(output, true)] }
  (env.Encode w1 results, { w1 with written := w1.written ++ [(results, output)] })

/-- The values of the flags that the command returned by `attackCmd` captures. -/
structure Flags where
  rateFlag : List Nat
  ordering : String
  duration : Int
  output : String
  redirects : Int
  timeout : Int
  hdrs : Header

/-- The loop `for _, rate := range rateFlag` of the command returned by `attackCmd`,
on the still unread part of `rateFlag`, with the local variable `results` as state:
the first error of `attack` is returned at once. -/
def attackLoop (env : Env) (fl : Flags) :
    List Nat → List Result → World → Except String (List Result) × World
  | [], results, w => (.ok results, w)
  | rate :: rest, results, w =>
    match attack env rate fl.duration fl.ordering fl.output fl.redirects fl.timeout
        fl.hdrs results w with
    | (.error err, w1) => (.error err, w1)
    | (.ok results1, w1) => attackLoop env fl rest results1 w1

/-- The command returned by `attackCmd`: the loop over the rates, started on the
empty result sequence, then `writeResults`; the value is the error returned, if
any. -/
def attackCmdRun (env : Env) (fl : Flags) (w : World) : Option String × World :=
  match attackLoop env fl fl.rateFlag [] w with
  | (.error err, w1) => (some err, w1)
  | (.ok results, w1) => writeResults env results fl.output w1

/-- Same-rate results are contiguous: between two positions carrying the same rate
every position carries that rate. -/
def Contiguous (rates : List Nat) : Prop :=
  ∀ k, k < rates.length → ∀ j, j < k → ∀ i, i < j →
    rates[i]? = rates[k]? → rates[j]? = rates[i]?

/-- An engine that answers every call with one successful result tagged with the
requested rate; shuffling is the identity, files open, encoding succeeds. -/
def oneHitEnv : Env :=
  { unixNano := fun _ => 0
    Shuffle := fun _ ts => ts
    file := fun _ _ _ => none
    Attack := fun _ _ rate _ => [resultAt rate]
    Encode := fun _ _ => none }

/-- Flags with the given rates, one second per pass, sequential ordering and the
standard output, the other flags at their defaults. -/
def flagsFor (rates : List Nat) : Flags :=
  { rateFlag := rates, ordering := "sequential", duration := 1000000000,
    output := "stdout", redirects := 10, timeout := 0, hdrs := [] }

/-- A state with two targets and no call made yet. -/
def freshWorld : World :=
  { targets := [{ Method := "GET", URL := "http://a/", Body := "", Header := [] },
                { Method := "GET", URL := "http://b/", Body := "", Header := [] }]
    redirects := 10, timeout := 0, shuffles := [], fileCalls := [], engineCalls := [],
    written := [] }

/-- The occurrences of `r` in a list of rates form a prefix of it: once another rate
has appeared, `r` does not appear again. Used in proofs only. -/
def runPrefix (r : Nat) : List Nat → Prop
  | [] => True
  | a :: t => if a = r then runPrefix r t else r ∉ t

/-- Contiguity stated by recursion on the list: the occurrences of the head in the
tail form a prefix of the tail, and the tail is contiguous. It is shown equivalent
to `Contiguous` and is used in proofs only. -/
def ContiguousRec : List Nat → Prop
  | [] => True
  | a :: t => runPrefix a t ∧ ContiguousRec t

/-! ## Further notions on the partitioner -/

/-- The groups `gs` with every `from_` and `to_` moved up by `n`. -/
def shiftGroups (n : Nat) (gs : List ResultGroup) : List ResultGroup :=
  gs.map (fun g => { from_ := g.from_ + n, to_ := g.to_ + n, rate := g.rate })

/-- The positions, counted from `i`, at which the rate of the suffix `rest` differs
from the rate just before it, `prev` being the rate before the first element. Used
in proofs only. -/
def changePositions : Nat → List Result → Nat → List Nat
  | _, [], _ => []
  | prev, r :: rest, i =>
    if r.Rate ≠ prev then i :: changePositions r.Rate rest (i + 1)
    else changePositions prev rest (i + 1)

/-! ## Flag values: the rate list and the headers

Go strings are Lean strings; the library functions used by the two `Set` methods
are embedded on the list of characters of a string. A string that is not valid
UTF-8 has no counterpart here. -/

/-- The pieces of a list of characters between the occurrences of `sep`: one more
piece than there are occurrences. -/
def splitOn (sep : Char) : List Char → List (List Char)
  | [] => [[]]
  | c :: cs =>
    if c = sep then [] :: splitOn sep cs
    else
      match splitOn sep cs with
      | [] => [[c]]
      | p :: ps => (c :: p) :: ps

/-- Go's `strings.Split(s, sep)` for a separator of one ASCII character. -/
def strings.Split (s : String) (sep : Char) : List String :=
  (splitOn sep s.data).map String.mk

/-- The largest `uint64`. -/
def maxUint64 : Nat := 2 ^ 64 - 1

/-- The value of a character as a decimal digit, if it is one. In `ParseUint` a letter
has a digit value of at least 10 and is refused in base 10 like any other
character. -/
def digitVal (c : Char) : Option Nat :=
  if 48 ≤ c.toNat ∧ c.toNat ≤ 57 then some (c.toNat - 48) else none

/-- The two errors of `strconv.ParseUint`. -/
inductive ParseErr where
  | invalid
  | range
deriving DecidableEq, Repr

/-- The digit loop of `strconv.ParseUint(s, 10, 64)`, `n` being the `uint64`
accumulator: `cutoff` is `maxUint64/10 + 1`, beyond which `n*10` overflows, and the
sum `n*10 + d` is computed modulo `2^64`, a wrapped sum being smaller than
`n*10`. -/
def parseUintLoop : List Char → Nat → Except ParseErr Nat
  | [], n => .ok n
  | c :: cs, n =>
    match digitVal c with
    | none => .error .invalid
    | some d =>
      if n ≥ maxUint64 / 10 + 1 then .error .range
      else
        let n10 := n * 10
        let n1 := (n10 + d) % 2 ^ 64
        if n1 < n10 ∨ n1 > maxUint64 then .error .range
        else parseUintLoop cs n1

/-- Go's `strconv.ParseUint(s, 10, 64)`. The message of the error is that of
`*strconv.NumError`; `quote` stands for `strconv.Quote`. -/
def strconv.ParseUint (quote : String → String) (s : String) : Except String Nat :=
  if s = "" then
    .error ("strconv.ParseUint: parsing " ++ quote s ++ ": invalid syntax")
  else
    match parseUintLoop s.data 0 with
    | .ok n => .ok n
    | .error .invalid =>
      .error ("strconv.ParseUint: parsing " ++ quote s ++ ": invalid syntax")
    | .error .range =>
      .error ("strconv.ParseUint: parsing " ++ quote s ++ ": value out of range")

/-- The loop `for _, singleRate := range strings.Split(value, ",")` of
`rateList.Set`, on the pieces still to read, with the list `*i` as state. The value
is the error returned (`none` for `nil`) and the list after the call: the rates
parsed before a failing piece stay appended. -/
def rateListSetLoop (quote : String → String) :
    List String → List Nat → Option String × List Nat
  | [], i => (none, i)
  | singleRate :: rest, i =>
    match strconv.ParseUint quote singleRate with
    | .error err => (some err, i)
    | .ok oneRate => rateListSetLoop quote rest (i ++ [oneRate])

/-- The method `rateList.Set` of attack.go. -/
def rateList.Set (quote : String → String) (i : List Nat) (value : String) :
    Option String × List Nat :=
  rateListSetLoop quote (strings.Split value ',') i

/-- The number written by a string of decimal digits. -/
def decimalValue (s : String) : Nat :=
  s.data.foldl (fun n c => n * 10 + (c.toNat - 48)) 0

/-- What `strconv.Quote` gives on a string of printable ASCII characters without
double quote or backslash: the string between double quotes. -/
def quotePlain (s : String) : String :=
  String.singleton (Char.ofNat 34) ++ s ++ String.singleton (Char.ofNat 34)

/-- The function `attackCmd` of attack.go after `fs.Parse(args)`: `fl` and `targetsf`
are the values of the flag variables once the arguments are parsed. `NewTargetsFrom`
stands for `vegeta.NewTargetsFrom`, which is outside the sources. The value is the
error or the command (a function on the state), and the state after the call, in
which the targets read are the `targets` of the command. -/
def attackCmd (env : Env) (NewTargetsFrom : World → String → Except String (List Target))
    (fl : Flags) (targetsf : String) (w : World) :
    Except String (World → Option String × World) × World :=
  if fl.rateFlag.length = 0 then
    (.error (errRatePrefix ++ "has to be specified and can't be empty"), w)
  else
    let w1 := { w with fileCalls := w.fileCalls ++ [(targetsf, false)] }
    match env.file w targetsf false with
    | some err => (.error (errTargetsFilePrefix ++ "(" ++ targetsf ++ "): " ++ err), w1)
    | none =>
      match NewTargetsFrom w1 targetsf with
      | .error err =>
        (.error (errTargetsFilePrefix ++ "(" ++ targetsf ++ "): " ++ err), w1)
      | .ok targets => (.ok (attackCmdRun env fl), { w1 with targets := targets })

/-- Go's `unicode.IsSpace`: the Latin-1 spaces and the other code points with the
Unicode property White_Space. -/
def isSpace (c : Char) : Bool :=
  let n := c.toNat
  (9 ≤ n && n ≤ 13) || n == 32 || n == 0x85 || n == 0xA0 || n == 0x1680 ||
    (0x2000 ≤ n && n ≤ 0x200A) || n == 0x2028 || n == 0x2029 || n == 0x202F ||
    n == 0x205F || n == 0x3000

/-- Go's `strings.TrimSpace`: the string without its leading and trailing white
space. -/
def strings.TrimSpace (s : String) : String :=
  String.mk ((s.data.dropWhile isSpace).reverse.dropWhile isSpace).reverse

/-- The values stored under a key of a header (`h[key]`, empty for a missing key). -/
def Header.get : Header → String → List String
  | [], _ => []
  | (k, vs) :: rest, key => if k = key then vs else Header.get rest key

/-- The assignment `h[key] = vs`. -/
def Header.put (h : Header) (key : String) (vs : List String) : Header :=
  (key, vs) :: h.filter (fun p => p.1 ≠ key)

/-- Go's `http.Header.Add(key, value)`: the value is appended to the values stored
under the canonical form of the key; `canon` stands for the standard library's
`textproto.CanonicalMIMEHeaderKey`. -/
def Header.Add (canon : String → String) (h : Header) (key value : String) : Header :=
  Header.put h (canon key) (Header.get h (canon key) ++ [value])

/-- The method `headers.Set` of attack.go. The value is the error, or the header
after the call. -/
def headers.Set (canon : String → String) (h : Header) (value : String) :
    Except String Header :=
  match strings.Split value ':' with
  | [p0, p1] =>
    let key := strings.TrimSpace p0
    let val := strings.TrimSpace p1
    if key = "" ∨ val = "" then
      .error ("Header '" ++ value ++ "' has a wrong format")
    else
      .ok (Header.Add canon h key val)
  | _ => .error ("Header '" ++ value ++ "' has a wrong format")

/-- The bytes allowed in a header key: the token characters of HTTP. -/
def validHeaderFieldByte (c : Char) : Bool :=
  c.isAlphanum || "!#$%&'*+-.^_`|~".data.contains c

/-- The letter-case loop of the canonical form: a letter is upper case at the start
and after a hyphen, lower case elsewhere. -/
def canonicalLoop : Bool → List Char → List Char
  | _, [] => []
  | upper, c :: cs =>
    let c1 := if upper && c.isLower then c.toUpper
      else if !upper && c.isUpper then c.toLower else c
    c1 :: canonicalLoop (c1 == '-') cs

/-- The standard library's `textproto.CanonicalMIMEHeaderKey`, as in the current
library: a key with a byte that is not allowed in a header key is returned as it
is. On keys made of letters, digits and hyphens every version of the library
agrees. -/
def CanonicalMIMEHeaderKey (s : String) : String :=
  if s.data.all validHeaderFieldByte then String.mk (canonicalLoop true s.data) else s

/-! # Theorems -/

/-! ## Lemmas on the partitioner -/

theorem slicesLoop_closeRuns (rest : List Result) :
    ∀ (i : Nat) (gs : List ResultGroup) (g : ResultGroup),
      (slicesLoop rest i gs g).1 ++
          [{ (slicesLoop rest i gs g).2 with to_ := i + rest.length }]
        = gs ++ closeRuns rest i g := by
  induction rest with
  | nil => intro i gs g; simp [slicesLoop, closeRuns]
  | cons r rest ih =>
    intro i gs g
    by_cases h : r.Rate = g.rate
    · have := ih (i + 1) gs g
      simp only [slicesLoop, closeRuns, h, ne_eq, not_true_eq_false, if_false, List.length_cons]
      rw [← this]; congr 3; omega
    · have := ih (i + 1) (gs ++ [{ g with to_ := i }]) { from_ := i, to_ := 0, rate := r.Rate }
      simp only [slicesLoop, closeRuns, h, ne_eq, not_false_eq_true, if_true, List.length_cons]
      rw [show i + (rest.length + 1) = i + 1 + rest.length by omega, this]
      simp

theorem slicesPerAttackRate_cons (r : Result) (rest : List Result) :
    slicesPerAttackRate (r :: rest)
      = closeRuns rest 1 { from_ := 0, to_ := 0, rate := r.Rate } := by
  have h := slicesLoop_closeRuns (r :: rest) 0 [] { from_ := 0, to_ := 0, rate := r.Rate }
  simp only [slicesPerAttackRate]
  simp only [Nat.zero_add, List.nil_append] at h
  rw [h]
  simp [closeRuns]

theorem closeRuns_ne_nil (rest : List Result) (i : Nat) (g : ResultGroup) :
    closeRuns rest i g ≠ [] := by
  induction rest generalizing i g with
  | nil => simp [closeRuns]
  | cons r rest ih =>
    by_cases h : r.Rate = g.rate
    · simpa [closeRuns, h] using ih (i + 1) g
    · simp [closeRuns, h]

theorem closeRuns_tiles (rest : List Result) :
    ∀ (i : Nat) (g : ResultGroup), g.from_ < i →
      Tiles g.from_ (closeRuns rest i g) (i + rest.length) := by
  induction rest with
  | nil => intro i g h; simp [closeRuns, Tiles, h]
  | cons r rest ih =>
    intro i g h
    by_cases hr : r.Rate = g.rate
    · have := ih (i + 1) g (by omega)
      simp only [closeRuns, hr, ne_eq, not_true_eq_false, if_false, List.length_cons]
      rw [show i + (rest.length + 1) = i + 1 + rest.length by omega]
      exact this
    · have := ih (i + 1) { from_ := i, to_ := 0, rate := r.Rate } (by simp)
      simp only [closeRuns, hr, ne_eq, not_false_eq_true, if_true, List.length_cons, Tiles]
      rw [show i + (rest.length + 1) = i + 1 + rest.length by omega]
      exact ⟨trivial, h, this⟩

theorem slicesPerAttackRate_Tiles (rs : List Result) :
    Tiles 0 (slicesPerAttackRate rs) rs.length := by
  cases rs with
  | nil => simp [slicesPerAttackRate, Tiles]
  | cons r rest =>
    rw [slicesPerAttackRate_cons]
    have := closeRuns_tiles rest 1 { from_ := 0, to_ := 0, rate := r.Rate } (by simp)
    simpa [Nat.add_comm] using this

/-! ### Consequences of `Tiles` -/

theorem Tiles.le : ∀ {gs : List ResultGroup} {a b : Nat}, Tiles a gs b → a ≤ b
  | [], a, b, h => by simp [Tiles] at h; omega
  | g :: gs, a, b, h => by
    obtain ⟨_, h2, h3⟩ := h
    have := Tiles.le h3
    omega

theorem Tiles.head : ∀ {gs : List ResultGroup} {a b : Nat}, Tiles a gs b → gs ≠ [] →
    gs.head?.map (fun g => g.from_) = some a
  | [], _, _, _, hne => absurd rfl hne
  | g :: gs, a, b, h, _ => by simp [h.1]

theorem Tiles.last : ∀ {gs : List ResultGroup} {a b : Nat}, Tiles a gs b → gs ≠ [] →
    gs.getLast?.map (fun g => g.to_) = some b
  | [], _, _, _, hne => absurd rfl hne
  | [g], a, b, h, _ => by
    obtain ⟨_, _, h3⟩ := h
    simp [Tiles] at h3
    simp [h3]
  | g :: g2 :: gs, a, b, h, _ => by
    have := Tiles.last h.2.2 (by simp)
    simpa [List.getLast?_cons_cons] using this

theorem Tiles.chain : ∀ {gs : List ResultGroup} {a b : Nat}, Tiles a gs b →
    List.Chain' (fun x y => x.to_ = y.from_) gs
  | [], _, _, _ => List.chain'_nil
  | [g], _, _, _ => List.chain'_singleton g
  | g :: g2 :: gs, a, b, h => by
    have h3 := h.2.2
    exact List.Chain'.cons h3.1.symm (Tiles.chain h3)

theorem Tiles.bounds : ∀ {gs : List ResultGroup} {a b : Nat}, Tiles a gs b →
    ∀ g ∈ gs, a ≤ g.from_ ∧ g.from_ < g.to_ ∧ g.to_ ≤ b
  | [], _, _, _ => by simp
  | g :: gs, a, b, h => by
    obtain ⟨h1, h2, h3⟩ := h
    intro x hx
    rcases List.mem_cons.1 hx with rfl | hx
    · exact ⟨by omega, by omega, Tiles.le h3⟩
    · have := Tiles.bounds h3 x hx
      omega

theorem Tiles.pairwise : ∀ {gs : List ResultGroup} {a b : Nat}, Tiles a gs b →
    List.Pairwise (fun x y => x.to_ ≤ y.from_) gs
  | [], _, _, _ => List.Pairwise.nil
  | g :: gs, a, b, h => by
    obtain ⟨_, _, h3⟩ := h
    refine List.Pairwise.cons ?_ (Tiles.pairwise h3)
    intro y hy
    exact (Tiles.bounds h3 y hy).1

theorem Tiles.countP : ∀ {gs : List ResultGroup} {a b : Nat}, Tiles a gs b →
    ∀ k, gs.countP (ResultGroup.covers k) = if a ≤ k ∧ k < b then 1 else 0
  | [], a, b, h => by
    intro k
    simp [Tiles] at h
    subst h
    have : ¬ (a ≤ k ∧ k < a) := by omega
    simp [this]
  | g :: gs, a, b, h => by
    obtain ⟨h1, h2, h3⟩ := h
    intro k
    have ih := Tiles.countP h3 k
    have hle := Tiles.le h3
    rw [List.countP_cons, ih]
    simp only [ResultGroup.covers, Bool.and_eq_true, decide_eq_true_eq]
    split_ifs <;> omega

/-! ### Rates of the groups -/

theorem closeRuns_head (rest : List Result) (i : Nat) (g : ResultGroup) :
    ∃ j t, closeRuns rest i g = { g with to_ := j } :: t := by
  induction rest generalizing i g with
  | nil => exact ⟨i, [], rfl⟩
  | cons r rest ih =>
    by_cases h : r.Rate = g.rate
    · obtain ⟨j, t, e⟩ := ih (i + 1) g
      exact ⟨j, t, by simp [closeRuns, h, e]⟩
    · exact ⟨i, closeRuns rest (i + 1) { from_ := i, to_ := 0, rate := r.Rate },
        by simp [closeRuns, h]⟩

theorem closeRuns_span_rate (rs : List Result) (rest : List Result) :
    ∀ (i : Nat) (g : ResultGroup), rs.drop i = rest →
      (∀ k, g.from_ ≤ k → k < i → rs[k]?.map (fun r => r.Rate) = some g.rate) →
      ∀ x ∈ closeRuns rest i g, ∀ k, x.from_ ≤ k → k < x.to_ →
        rs[k]?.map (fun r => r.Rate) = some x.rate := by
  induction rest with
  | nil =>
    intro i g _ hg x hx k h1 h2
    simp only [closeRuns, List.mem_singleton] at hx
    subst hx
    exact hg k h1 h2
  | cons r rest ih =>
    intro i g hd hg x hx k h1 h2
    have hi : rs[i]? = some r := by
      have : (rs.drop i)[0]? = rs[i + 0]? := List.getElem?_drop rs i 0
      rw [hd] at this
      simpa using this.symm
    have hd2 : rs.drop (i + 1) = rest := by
      have := List.drop_drop 1 i rs
      rw [hd] at this
      simpa [Nat.add_comm] using this.symm
    by_cases hr : r.Rate = g.rate
    · simp only [closeRuns, hr, ne_eq, not_true_eq_false, if_false] at hx
      refine ih (i + 1) g hd2 ?_ x hx k h1 h2
      intro k hk1 hk2
      by_cases hki : k = i
      · subst hki; simp [hi, hr]
      · exact hg k hk1 (by omega)
    · simp only [closeRuns, hr, ne_eq, not_false_eq_true, if_true, List.mem_cons] at hx
      rcases hx with rfl | hx
      · exact hg k h1 h2
      · refine ih (i + 1) { from_ := i, to_ := 0, rate := r.Rate } hd2 ?_ x hx k h1 h2
        intro k hk1 hk2
        have hki : k = i := by simp at hk1; omega
        subst hki; simp [hi]

theorem closeRuns_chain_rate (rest : List Result) :
    ∀ (i : Nat) (g : ResultGroup),
      List.Chain' (fun x y => x.rate ≠ y.rate) (closeRuns rest i g) := by
  induction rest with
  | nil => intro i g; simp [closeRuns]
  | cons r rest ih =>
    intro i g
    by_cases hr : r.Rate = g.rate
    · simpa [closeRuns, hr] using ih (i + 1) g
    · obtain ⟨j, t, e⟩ := closeRuns_head rest (i + 1) { from_ := i, to_ := 0, rate := r.Rate }
      have := ih (i + 1) { from_ := i, to_ := 0, rate := r.Rate }
      simp only [closeRuns, hr, ne_eq, not_false_eq_true, if_true]
      rw [e] at this ⊢
      exact List.Chain'.cons (by simpa using fun h => hr h.symm) this

theorem mergeAdjacent_cons_head (a : Nat) (l : List Nat) :
    ∃ t, mergeAdjacent (a :: l) = a :: t := by
  induction l generalizing a with
  | nil => exact ⟨[], rfl⟩
  | cons b l ih =>
    by_cases h : a = b
    · subst h
      obtain ⟨t, e⟩ := ih a
      exact ⟨t, by simp [mergeAdjacent, e]⟩
    · exact ⟨mergeAdjacent (b :: l), by simp [mergeAdjacent, h]⟩

theorem closeRuns_map_rate (rest : List Result) :
    ∀ (i : Nat) (g : ResultGroup),
      (closeRuns rest i g).map (fun x => x.rate)
        = mergeAdjacent (g.rate :: rest.map (fun r => r.Rate)) := by
  induction rest with
  | nil => intro i g; simp [closeRuns, mergeAdjacent]
  | cons r rest ih =>
    intro i g
    by_cases hr : r.Rate = g.rate
    · simp only [closeRuns, hr, ne_eq, not_true_eq_false, if_false, List.map_cons,
        mergeAdjacent, if_true]
      exact ih (i + 1) g
    · have hr2 : ¬ g.rate = r.Rate := fun h => hr h.symm
      simp only [closeRuns, hr, ne_eq, not_false_eq_true, if_true, List.map_cons,
        mergeAdjacent, hr2, if_false]
      rw [ih]

theorem slicesPerAttackRate_map_rate (rs : List Result) :
    (slicesPerAttackRate rs).map (fun x => x.rate)
      = mergeAdjacent (rs.map (fun r => r.Rate)) := by
  cases rs with
  | nil => rfl
  | cons r rest =>
    rw [slicesPerAttackRate_cons, closeRuns_map_rate, List.map_cons]

theorem slicesPerAttackRate_ne_nil (rs : List Result) (h : rs ≠ []) :
    slicesPerAttackRate rs ≠ [] := by
  cases rs with
  | nil => exact absurd rfl h
  | cons r rest => rw [slicesPerAttackRate_cons]; exact closeRuns_ne_nil _ _ _

/-! ## The claims on the partitioner -/

/-- C1: for a non-empty result sequence the groups of `slicesPerAttackRate` tile
the index range: the first starts at 0, the last stops at `len(rs)`, each stops
where the next starts, none is empty; hence the spans come in sequence order and
are pairwise disjoint, every span satisfies `from < to <= len(rs)` (so the slice
`rs[from:to]` is in bounds), and every index of `rs` lies in exactly one span. -/
theorem slicesPerAttackRate_tiling (rs : List Result) (h : rs ≠ []) :
    (slicesPerAttackRate rs).head?.map (fun g => g.from_) = some 0 ∧
    (slicesPerAttackRate rs).getLast?.map (fun g => g.to_) = some rs.length ∧
    List.Chain' (fun a b => a.to_ = b.from_) (slicesPerAttackRate rs) ∧
    (∀ g ∈ slicesPerAttackRate rs, g.from_ < g.to_ ∧ g.to_ ≤ rs.length) ∧
    List.Pairwise (fun a b => a.to_ ≤ b.from_) (slicesPerAttackRate rs) ∧
    (∀ k, k < rs.length →
      (slicesPerAttackRate rs).countP (fun g => decide (g.from_ ≤ k ∧ k < g.to_)) = 1) := by
  have ht := slicesPerAttackRate_Tiles rs
  have hne := slicesPerAttackRate_ne_nil rs h
  refine ⟨ht.head hne, ht.last hne, ht.chain, fun g hg => (ht.bounds g hg).2, ht.pairwise, ?_⟩
  intro k hk
  have := ht.countP k
  simp only [Nat.zero_le, true_and, hk, if_true] at this
  rw [← this]
  congr 1
  funext g
  simp [ResultGroup.covers]

/-- Witness of C1 on the sequence of rates 10, 10, 50. -/
theorem slicesPerAttackRate_tiling_witness :
    [resultAt 10, resultAt 10, resultAt 50] ≠ [] ∧
    (slicesPerAttackRate [resultAt 10, resultAt 10, resultAt 50]).head?.map
      (fun g => g.from_) = some 0 ∧
    (slicesPerAttackRate [resultAt 10, resultAt 10, resultAt 50]).getLast?.map
      (fun g => g.to_) = some [resultAt 10, resultAt 10, resultAt 50].length :=
  ⟨List.cons_ne_nil _ _,
   (slicesPerAttackRate_tiling [resultAt 10, resultAt 10, resultAt 50]
      (List.cons_ne_nil _ _)).1,
   (slicesPerAttackRate_tiling [resultAt 10, resultAt 10, resultAt 50]
      (List.cons_ne_nil _ _)).2.1⟩

/-- C2: every group returned by `slicesPerAttackRate` is a maximal same-rate run,
whatever the input (contiguity of rates is not assumed): every index of the span
carries the group's rate, and two consecutive groups have different rates. -/
theorem slicesPerAttackRate_runs (rs : List Result) :
    (∀ g ∈ slicesPerAttackRate rs, ∀ i, g.from_ ≤ i → i < g.to_ →
      rs[i]?.map (fun r => r.Rate) = some g.rate) ∧
    List.Chain' (fun a b => a.rate ≠ b.rate) (slicesPerAttackRate rs) := by
  cases rs with
  | nil => simp [slicesPerAttackRate]
  | cons r rest =>
    rw [slicesPerAttackRate_cons]
    refine ⟨?_, closeRuns_chain_rate rest 1 _⟩
    refine closeRuns_span_rate (r :: rest) rest 1 _ (by simp) ?_
    intro k hk1 hk2
    have : k = 0 := by omega
    subst this
    simp

/-! ### Partitioning a concatenation of tagged passes -/

theorem mergeAdjacent_cons_congr (r : Nat) {l l2 : List Nat}
    (h : mergeAdjacent l = mergeAdjacent l2) :
    mergeAdjacent (r :: l) = mergeAdjacent (r :: l2) := by
  have key : ∀ l : List Nat, mergeAdjacent (r :: l) =
      match mergeAdjacent l with
      | [] => [r]
      | y :: ys => if r = y then y :: ys else r :: y :: ys := by
    intro l
    cases l with
    | nil => rfl
    | cons b t =>
      obtain ⟨u, e⟩ := mergeAdjacent_cons_head b t
      by_cases hb : r = b
      · simp [mergeAdjacent, hb, e]
      · simp [mergeAdjacent, hb, e]
  rw [key l, key l2, h]

theorem mergeAdjacent_pass (r : Nat) (J : List Nat) :
    ∀ p : List Result, (∀ x ∈ p, x.Rate = r) → p ≠ [] →
      mergeAdjacent (p.map (fun x => x.Rate) ++ J) = mergeAdjacent (r :: J)
  | [], _, hne => absurd rfl hne
  | [x], h, _ => by
    have : x.Rate = r := h x (by simp)
    simp [this]
  | x :: y :: t, h, _ => by
    have hx : x.Rate = r := h x (by simp)
    have hy : y.Rate = r := h y (by simp)
    have ih := mergeAdjacent_pass r J (y :: t)
      (fun z hz => h z (List.mem_cons_of_mem _ hz)) (by simp)
    simp only [List.map_cons, List.cons_append] at ih ⊢
    rw [hx, hy] at *
    simpa [mergeAdjacent] using ih

theorem mergeAdjacent_passes {schedule : List Nat} {passes : List (List Result)}
    (htag : List.Forall₂ (fun r p => ∀ x ∈ p, x.Rate = r) schedule passes) :
    mergeAdjacent (passes.flatten.map (fun x => x.Rate))
      = mergeAdjacent (effectiveSchedule schedule passes) := by
  induction htag with
  | nil => rfl
  | @cons r p schedule passes hp _ ih =>
    by_cases hne : p = []
    · subst hne
      simpa [effectiveSchedule] using ih
    · have hemp : p.isEmpty = false := by
        cases p with
        | nil => exact absurd rfl hne
        | cons _ _ => rfl
      have e : effectiveSchedule (r :: schedule) (p :: passes)
          = r :: effectiveSchedule schedule passes := by
        simp [effectiveSchedule, hemp]
      rw [e, List.flatten_cons, List.map_append, mergeAdjacent_pass r _ p hp hne]
      exact mergeAdjacent_cons_congr r ih

theorem effectiveSchedule_of_nonempty {schedule : List Nat} {passes : List (List Result)}
    (htag : List.Forall₂ (fun r p => ∀ x ∈ p, x.Rate = r) schedule passes)
    (hne : ∀ p ∈ passes, p ≠ []) : effectiveSchedule schedule passes = schedule := by
  induction htag with
  | nil => rfl
  | @cons r p schedule passes _ _ ih =>
    have hp : p.isEmpty = false := by
      cases p with
      | nil => exact absurd rfl (hne [] (by simp))
      | cons _ _ => rfl
    have := ih (fun q hq => hne q (List.mem_cons_of_mem _ hq))
    simp only [effectiveSchedule] at this
    simp [effectiveSchedule, hp, this]

/-- C3, as the claim states it, fails when a pass yields no result: with the
schedule 10, 50 and passes `[]` and one result at rate 50, every result carries
its pass's rate, yet the groups' rates are `[50]` and not the merged schedule. -/
theorem emptyPass_breaks_schedule_rates :
    ([10, 50] : List Nat) ≠ [] ∧
    List.Forall₂ (fun r p => ∀ x ∈ p, x.Rate = r) [10, 50] [[], [resultAt 50]] ∧
    (slicesPerAttackRate ([[], [resultAt 50]] : List (List Result)).flatten).map
        (fun g => g.rate) = [50] ∧
    mergeAdjacent [10, 50] = [10, 50] ∧
    (slicesPerAttackRate ([[], [resultAt 50]] : List (List Result)).flatten).map
        (fun g => g.rate) ≠ mergeAdjacent [10, 50] := by
  refine ⟨by simp, ?_, by decide, by decide, by decide⟩
  refine List.Forall₂.cons (by simp) (List.Forall₂.cons ?_ List.Forall₂.nil)
  intro x hx
  simp only [List.mem_singleton] at hx
  subst hx
  rfl

/-- C3 (amended): when every result of pass `p_i` is tagged with the schedule's
rate `r_i`, the groups of the concatenated passes have as rates the schedule
restricted to the passes that produced at least one result, adjacent equal
entries merged; this is the schedule itself with adjacent equal entries merged
whenever no pass is empty. The spans are disjoint (each stops no later than any
later one starts) and exhaustive (an index lies in exactly one span if it is an
index of the sequence, and in none otherwise). -/
theorem slicesPerAttackRate_schedule (schedule : List Nat) (passes : List (List Result))
    (htag : List.Forall₂ (fun r p => ∀ x ∈ p, x.Rate = r) schedule passes) :
    (slicesPerAttackRate passes.flatten).map (fun g => g.rate)
      = mergeAdjacent (effectiveSchedule schedule passes) ∧
    ((∀ p ∈ passes, p ≠ []) →
      (slicesPerAttackRate passes.flatten).map (fun g => g.rate)
        = mergeAdjacent schedule) ∧
    List.Pairwise (fun a b => a.to_ ≤ b.from_) (slicesPerAttackRate passes.flatten) ∧
    (∀ k, (slicesPerAttackRate passes.flatten).countP
        (fun g => decide (g.from_ ≤ k ∧ k < g.to_))
      = if k < passes.flatten.length then 1 else 0) := by
  have hr := (slicesPerAttackRate_map_rate passes.flatten).trans (mergeAdjacent_passes htag)
  have ht := slicesPerAttackRate_Tiles passes.flatten
  refine ⟨hr, ?_, ht.pairwise, ?_⟩
  · intro hne
    rw [hr, effectiveSchedule_of_nonempty htag hne]
  · intro k
    have := ht.countP k
    simp only [Nat.zero_le, true_and] at this
    rw [← this]
    congr 1
    funext g
    simp [ResultGroup.covers]

/-- Witness of C3 on the schedule 10, 10, 50 with passes of two, one and one
results. -/
theorem slicesPerAttackRate_schedule_witness :
    (slicesPerAttackRate
        ([[resultAt 10, resultAt 10], [resultAt 10], [resultAt 50]] :
          List (List Result)).flatten).map (fun g => g.rate)
      = mergeAdjacent [10, 10, 50] :=
  (slicesPerAttackRate_schedule [10, 10, 50]
      [[resultAt 10, resultAt 10], [resultAt 10], [resultAt 50]]
      (List.Forall₂.cons (by decide)
        (List.Forall₂.cons (by decide)
          (List.Forall₂.cons (by decide) List.Forall₂.nil)))).2.1 (by decide)

/-! ## The CSV reporter -/

theorem reportLoop_eq {Metrics : Type} (NewMetrics : List Result → Metrics)
    (Csv : Metrics → Nat → List String) (results : List Result) :
    ∀ (gs : List ResultGroup) (w : List (List String)),
      (∀ g ∈ gs, g.from_ ≤ g.to_ ∧ g.to_ ≤ results.length) →
      reportLoop NewMetrics Csv results gs w
        = some (w ++ gs.map (fun g =>
            Csv (NewMetrics ((results.drop g.from_).take (g.to_ - g.from_))) g.rate)) := by
  intro gs
  induction gs with
  | nil => intro w _; simp [reportLoop]
  | cons g gs ih =>
    intro w h
    have hg := h g (by simp)
    have := ih (w ++ [Csv (NewMetrics ((results.drop g.from_).take (g.to_ - g.from_))) g.rate])
      (fun x hx => h x (List.mem_cons_of_mem _ hx))
    simp only [reportLoop, goSlice, hg, and_self, if_true]
    rw [this]
    simp

theorem slicesPerAttackRate_fixture (rs : List Result)
    (h : rs.map (fun r => r.Rate) = [10, 10, 10, 50, 50]) :
    slicesPerAttackRate rs
      = [{ from_ := 0, to_ := 3, rate := 10 }, { from_ := 3, to_ := 5, rate := 50 }] := by
  obtain ⟨a, t, rfl, ha, h⟩ := List.map_eq_cons_iff.1 h
  obtain ⟨b, t, rfl, hb, h⟩ := List.map_eq_cons_iff.1 h
  obtain ⟨c, t, rfl, hc, h⟩ := List.map_eq_cons_iff.1 h
  obtain ⟨d, t, rfl, hd, h⟩ := List.map_eq_cons_iff.1 h
  obtain ⟨e, t, rfl, he, h⟩ := List.map_eq_cons_iff.1 h
  have := List.map_eq_nil_iff.1 h
  subst this
  simp [slicesPerAttackRate, slicesLoop, ha, hb, hc, hd, he]

/-- C4: the records `ReportCSV` writes are the 9-column header followed by one
data record per group of `slicesPerAttackRate`, in group order, the record of
group `g` being `Csv (NewMetrics rs[g.from:g.to]) g.rate` (slicing never panics);
so there are as many data records as groups. On results tagged 10, 10, 10, 50, 50
the groups are `[0,3)` at rate 10 and `[3,5)` at rate 50, and exactly two data
records are written, over those two slices. -/
theorem ReportCSV_records {Metrics : Type} (NewMetrics : List Result → Metrics)
    (Csv : Metrics → Nat → List String) (rs : List Result) :
    ReportCSV NewMetrics Csv rs
      = some (["rate", "mean_ms", "p50_ms", "p95_ms", "p99_ms", "max_ms", "bytesIn_B",
            "bytesOut_B", "success_percent"] ::
          (slicesPerAttackRate rs).map (fun g =>
            Csv (NewMetrics ((rs.drop g.from_).take (g.to_ - g.from_))) g.rate)) ∧
    (∃ rows, ReportCSV NewMetrics Csv rs = some (csvHeader :: rows) ∧
      rows.length = (slicesPerAttackRate rs).length) ∧
    (rs.map (fun r => r.Rate) = [10, 10, 10, 50, 50] →
      slicesPerAttackRate rs
        = [{ from_ := 0, to_ := 3, rate := 10 }, { from_ := 3, to_ := 5, rate := 50 }] ∧
      ReportCSV NewMetrics Csv rs
        = some [csvHeader, Csv (NewMetrics (rs.take 3)) 10,
            Csv (NewMetrics (rs.drop 3)) 50]) := by
  have hb : ∀ g ∈ slicesPerAttackRate rs, g.from_ ≤ g.to_ ∧ g.to_ ≤ rs.length := by
    intro g hg
    have := (slicesPerAttackRate_Tiles rs).bounds g hg
    omega
  have key := reportLoop_eq NewMetrics Csv rs (slicesPerAttackRate rs) [csvHeader] hb
  have key2 : ReportCSV NewMetrics Csv rs
      = some (csvHeader :: (slicesPerAttackRate rs).map (fun g =>
          Csv (NewMetrics ((rs.drop g.from_).take (g.to_ - g.from_))) g.rate)) := by
    simpa [ReportCSV] using key
  refine ⟨key2, ⟨_, key2, by simp⟩, ?_⟩
  intro h
  have hs := slicesPerAttackRate_fixture rs h
  refine ⟨hs, ?_⟩
  have hlen : rs.length = 5 := by
    have := congrArg List.length h
    simpa using this
  rw [key2, hs]
  have : List.take 2 (List.drop 3 rs) = List.drop 3 rs := by
    apply List.take_of_length_le
    simp [hlen]
  simp [this]

/-- Witness of C4 on five concrete results tagged 10, 10, 10, 50, 50, with the
identity for `NewMetrics` and a `Csv` that renders only the rate column. -/
theorem ReportCSV_records_witness :
    ReportCSV (fun rs => rs) (fun _ rate => [toString rate])
        [resultAt 10, resultAt 10, resultAt 10, resultAt 50, resultAt 50]
      = some [csvHeader, ["10"], ["50"]] :=
  ((ReportCSV_records (fun rs => rs) (fun _ rate => [toString rate])
      [resultAt 10, resultAt 10, resultAt 10, resultAt 50, resultAt 50]).2.2
    (by decide)).2

/-! ## One pass: `attack` -/

theorem applyOrdering_eq_none (env : Env) (ordering : String) (w : World) :
    applyOrdering env ordering w = none ↔ ordering ≠ "sequential" ∧ ordering ≠ "random" := by
  unfold applyOrdering
  by_cases h1 : ordering = "random"
  · simp [h1]
  · by_cases h2 : ordering = "sequential"
    · simp [h2]
    · simp [h1, h2]

theorem applyOrdering_logs (env : Env) (ordering : String) (w w2 : World)
    (h : applyOrdering env ordering w = some w2) :
    w2.engineCalls = w.engineCalls ∧ w2.written = w.written := by
  unfold applyOrdering at h
  split_ifs at h
  · cases h; exact ⟨rfl, rfl⟩
  · cases h; exact ⟨rfl, rfl⟩

theorem openOutput_logs (env : Env) (output : String) (w w3 : World)
    (h : openOutput env output w = .ok w3) :
    w3.engineCalls = w.engineCalls ∧ w3.written = w.written ∧ w3.targets = w.targets ∧
      w3.shuffles = w.shuffles := by
  unfold openOutput at h
  split_ifs at h
  · split at h
    · cases h
    · cases h; exact ⟨rfl, rfl, rfl, rfl⟩
  · cases h; exact ⟨rfl, rfl, rfl, rfl⟩

theorem openOutput_error (env : Env) (output : String) (w : World) (e : String)
    (h : openOutput env output w = .error e) :
    ∃ err, e = errOutputFilePrefix ++ "(" ++ output ++ "): " ++ err := by
  unfold openOutput at h
  split_ifs at h
  · split at h
    · cases h; exact ⟨_, rfl⟩
    · cases h

theorem configureAttacker_logs (redirects timeout : Int) (w : World) :
    (configureAttacker redirects timeout w).engineCalls = w.engineCalls ∧
    (configureAttacker redirects timeout w).written = w.written ∧
    (configureAttacker redirects timeout w).targets = w.targets ∧
    (configureAttacker redirects timeout w).shuffles = w.shuffles := by
  unfold configureAttacker
  dsimp only
  split_ifs <;> exact ⟨rfl, rfl, rfl, rfl⟩

theorem attack_rate_zero (env : Env) (duration : Int)
    (ordering output : String) (redirects timeout : Int) (hdr : Header)
    (prev : List Result) (w : World) :
    attack env 0 duration ordering output redirects timeout hdr prev w
      = (.error (errRatePrefix ++ "can't be zero"), w) := by
  simp [attack]

theorem attack_duration_zero (env : Env) (rate : Nat)
    (ordering output : String) (redirects timeout : Int) (hdr : Header)
    (prev : List Result) (w : World) (hr : rate ≠ 0) :
    attack env rate 0 ordering output redirects timeout hdr prev w
      = (.error (errDurationPrefix ++ "can't be zero"), w) := by
  simp [attack, hr]

theorem attack_ordering_invalid (env : Env) (rate : Nat) (duration : Int)
    (ordering output : String) (redirects timeout : Int) (hdr : Header)
    (prev : List Result) (w : World) (hr : rate ≠ 0) (hd : duration ≠ 0)
    (h2 : applyOrdering env ordering { w with targets := Targets.SetHeader w.targets hdr }
      = none) :
    attack env rate duration ordering output redirects timeout hdr prev w
      = (.error (errOrderingPrefix ++ "`" ++ ordering ++ "` is invalid"),
          { w with targets := Targets.SetHeader w.targets hdr }) := by
  simp [attack, hr, hd, h2]

theorem attack_output_error (env : Env) (rate : Nat) (duration : Int)
    (ordering output : String) (redirects timeout : Int) (hdr : Header)
    (prev : List Result) (w w2 : World) (e : String) (hr : rate ≠ 0) (hd : duration ≠ 0)
    (h2 : applyOrdering env ordering { w with targets := Targets.SetHeader w.targets hdr }
      = some w2)
    (h3 : openOutput env output w2 = .error e) :
    attack env rate duration ordering output redirects timeout hdr prev w
      = (.error e, w2) := by
  simp [attack, hr, hd, h2, h3]

theorem attack_engine (env : Env) (rate : Nat) (duration : Int)
    (ordering output : String) (redirects timeout : Int) (hdr : Header)
    (prev : List Result) (w w2 w3 : World) (hr : rate ≠ 0) (hd : duration ≠ 0)
    (h2 : applyOrdering env ordering { w with targets := Targets.SetHeader w.targets hdr }
      = some w2)
    (h3 : openOutput env output w2 = .ok w3) :
    attack env rate duration ordering output redirects timeout hdr prev w
      = (.ok (prev ++ (callEngine env rate duration
              (configureAttacker redirects timeout w3)).1),
          (callEngine env rate duration (configureAttacker redirects timeout w3)).2) := by
  simp [attack, hr, hd, h2, h3]

/-- An error of `attack` leaves both logs as they were: the engine is not called and
nothing is written. -/
theorem attack_error_logs (env : Env) (rate : Nat) (duration : Int)
    (ordering output : String) (redirects timeout : Int) (hdr : Header)
    (prev : List Result) (w : World) (e : String)
    (h : (attack env rate duration ordering output redirects timeout hdr prev w).1
      = .error e) :
    (attack env rate duration ordering output redirects timeout hdr prev w).2.engineCalls
        = w.engineCalls ∧
    (attack env rate duration ordering output redirects timeout hdr prev w).2.written
        = w.written := by
  by_cases hr : rate = 0
  · subst hr; rw [attack_rate_zero]; exact ⟨rfl, rfl⟩
  by_cases hd : duration = 0
  · subst hd; rw [attack_duration_zero _ _ _ _ _ _ _ _ _ hr]; exact ⟨rfl, rfl⟩
  cases h2 : applyOrdering env ordering { w with targets := Targets.SetHeader w.targets hdr } with
  | none => rw [attack_ordering_invalid _ _ _ _ _ _ _ _ _ _ hr hd h2]; exact ⟨rfl, rfl⟩
  | some w2 =>
    have l2 := applyOrdering_logs _ _ _ _ h2
    cases h3 : openOutput env output w2 with
    | error e3 =>
      rw [attack_output_error _ _ _ _ _ _ _ _ _ _ _ _ hr hd h2 h3]
      exact ⟨l2.1, l2.2⟩
    | ok w3 =>
      rw [attack_engine _ _ _ _ _ _ _ _ _ _ _ _ hr hd h2 h3] at h
      cases h

/-- A successful `attack` calls the engine exactly once, with the requested rate and
duration, returns the previous results followed by the engine's output, and writes
nothing. -/
theorem attack_ok_logs (env : Env) (rate : Nat) (duration : Int)
    (ordering output : String) (redirects timeout : Int) (hdr : Header)
    (prev : List Result) (w : World) (res : List Result)
    (h : (attack env rate duration ordering output redirects timeout hdr prev w).1
      = .ok res) :
    ∃ (w5 : World) (call : EngineCall),
      (attack env rate duration ordering output redirects timeout hdr prev w).2.engineCalls
        = w.engineCalls ++ [call] ∧
      call.rate = rate ∧ call.duration = duration ∧
      call.output = env.Attack w5 call.targets rate duration ∧
      res = prev ++ call.output ∧
      (attack env rate duration ordering output redirects timeout hdr prev w).2.written
        = w.written := by
  by_cases hr : rate = 0
  · subst hr; rw [attack_rate_zero] at h; cases h
  by_cases hd : duration = 0
  · subst hd; rw [attack_duration_zero _ _ _ _ _ _ _ _ _ hr] at h; cases h
  cases h2 : applyOrdering env ordering { w with targets := Targets.SetHeader w.targets hdr } with
  | none => rw [attack_ordering_invalid _ _ _ _ _ _ _ _ _ _ hr hd h2] at h; cases h
  | some w2 =>
    have l2 := applyOrdering_logs _ _ _ _ h2
    cases h3 : openOutput env output w2 with
    | error e3 =>
      rw [attack_output_error _ _ _ _ _ _ _ _ _ _ _ _ hr hd h2 h3] at h
      cases h
    | ok w3 =>
      have l3 := openOutput_logs _ _ _ _ h3
      have l4 := configureAttacker_logs redirects timeout w3
      rw [attack_engine _ _ _ _ _ _ _ _ _ _ _ _ hr hd h2 h3] at h ⊢
      injection h with h
      refine ⟨configureAttacker redirects timeout w3,
        { targets := (configureAttacker redirects timeout w3).targets, rate := rate,
          duration := duration,
          output := (callEngine env rate duration
            (configureAttacker redirects timeout w3)).1 },
        ?_, rfl, rfl, rfl, h.symm, ?_⟩
      · simp [callEngine, l4.1, l3.1, l2.1]
      · simp [callEngine, l4.2.1, l3.2.1, l2.2]

theorem outputFile_ne_ordering (x rest : String) :
    errOutputFilePrefix ++ x ≠ errOrderingPrefix ++ rest := by
  intro h
  have hd := congrArg String.data h
  rw [String.data_append, String.data_append] at hd
  have h1 : errOutputFilePrefix.data
      = ['O', 'u', 't', 'p', 'u', 't', ' ', 'f', 'i', 'l', 'e', ':', ' '] := rfl
  have h2 : errOrderingPrefix.data
      = ['O', 'r', 'd', 'e', 'r', 'i', 'n', 'g', ':', ' '] := rfl
  rw [h1, h2] at hd
  simp at hd

/-! ## The claims on one pass -/

/-- C8: a call of `attack` with rate 0 or duration 0 returns no results and an
error, and does not call the engine (the state, hence the log of engine calls, is
unchanged), whatever the other arguments; the message is exactly
"Rate(s): can't be zero" when the rate is 0 and exactly "Duration: can't be zero"
when the rate is not 0 and the duration is 0. -/
theorem attack_zero_fails (env : Env) (rate : Nat) (duration : Int)
    (ordering output : String) (redirects timeout : Int) (hdr : Header)
    (previousResults : List Result) (w : World) (h : rate = 0 ∨ duration = 0) :
    (∃ e, (attack env rate duration ordering output redirects timeout hdr
        previousResults w).1 = .error e) ∧
    (attack env rate duration ordering output redirects timeout hdr
        previousResults w).2 = w ∧
    (attack env rate duration ordering output redirects timeout hdr
        previousResults w).2.engineCalls = w.engineCalls ∧
    (rate = 0 →
      (attack env rate duration ordering output redirects timeout hdr
        previousResults w).1 = .error "Rate(s): can't be zero") ∧
    (rate ≠ 0 → duration = 0 →
      (attack env rate duration ordering output redirects timeout hdr
        previousResults w).1 = .error "Duration: can't be zero") := by
  by_cases hr : rate = 0
  · subst hr
    rw [attack_rate_zero]
    exact ⟨⟨_, rfl⟩, rfl, rfl, fun _ => rfl, fun hne => absurd rfl hne⟩
  · have hd : duration = 0 := h.resolve_left hr
    subst hd
    rw [attack_duration_zero _ _ _ _ _ _ _ _ _ hr]
    exact ⟨⟨_, rfl⟩, rfl, rfl, fun h0 => absurd h0 hr, fun _ _ => rfl⟩

/-- Witness of C8: a zero duration, with a non-zero rate, against a state whose log of
engine calls is empty. -/
theorem attack_zero_fails_witness :
    ((50 : Nat) = 0 ∨ (0 : Int) = 0) ∧
    (attack oneHitEnv 50 0 "random" "stdout" 10 0 [] [] freshWorld).1
      = .error "Duration: can't be zero" ∧
    (attack oneHitEnv 50 0 "random" "stdout" 10 0 [] [] freshWorld).2.engineCalls = [] :=
  ⟨Or.inr rfl,
   (attack_zero_fails oneHitEnv 50 0 "random" "stdout" 10 0 [] [] freshWorld
      (Or.inr rfl)).2.2.2.2 (by decide) rfl,
   (attack_zero_fails oneHitEnv 50 0 "random" "stdout" 10 0 [] [] freshWorld
      (Or.inr rfl)).2.2.1⟩

/-- C9: with a non-zero rate and a non-zero duration, `attack` fails with an
error of the "Ordering: " category if and only if the ordering is neither
"sequential" nor "random" (exact comparison); the message is then exactly
"Ordering: `<ordering>` is invalid" with the given value, and the engine is not
called. In particular the ordering "banana" fails with
"Ordering: `banana` is invalid". -/
theorem attack_ordering_error (env : Env) (rate : Nat) (duration : Int)
    (ordering output : String) (redirects timeout : Int) (hdr : Header)
    (previousResults : List Result) (w : World) (hr : rate ≠ 0) (hd : duration ≠ 0) :
    ((∃ rest, (attack env rate duration ordering output redirects timeout hdr
          previousResults w).1 = .error ("Ordering: " ++ rest)) ↔
      (ordering ≠ "sequential" ∧ ordering ≠ "random")) ∧
    ((ordering ≠ "sequential" ∧ ordering ≠ "random") →
      (attack env rate duration ordering output redirects timeout hdr
          previousResults w).1 = .error ("Ordering: `" ++ ordering ++ "` is invalid") ∧
      (attack env rate duration ordering output redirects timeout hdr
          previousResults w).2.engineCalls = w.engineCalls) ∧
    (ordering = "banana" →
      (attack env rate duration ordering output redirects timeout hdr
          previousResults w).1 = .error "Ordering: `banana` is invalid") := by
  have hinv : (ordering ≠ "sequential" ∧ ordering ≠ "random") →
      (attack env rate duration ordering output redirects timeout hdr
          previousResults w).1 = .error ("Ordering: `" ++ ordering ++ "` is invalid") ∧
      (attack env rate duration ordering output redirects timeout hdr
          previousResults w).2.engineCalls = w.engineCalls := by
    intro hbad
    have h2 := (applyOrdering_eq_none env ordering
      { w with targets := Targets.SetHeader w.targets hdr }).2 hbad
    rw [attack_ordering_invalid _ _ _ _ _ _ _ _ _ _ hr hd h2]
    exact ⟨rfl, rfl⟩
  refine ⟨⟨?_, ?_⟩, hinv, ?_⟩
  · rintro ⟨rest, herr⟩
    by_contra hgood
    cases h2 : applyOrdering env ordering
        { w with targets := Targets.SetHeader w.targets hdr } with
    | none => exact hgood ((applyOrdering_eq_none _ _ _).1 h2)
    | some w2 =>
      cases h3 : openOutput env output w2 with
      | error e3 =>
        rw [attack_output_error _ _ _ _ _ _ _ _ _ _ _ _ hr hd h2 h3] at herr
        obtain ⟨err, he⟩ := openOutput_error _ _ _ _ h3
        injection herr with herr
        rw [he, String.append_assoc, String.append_assoc, String.append_assoc] at herr
        exact outputFile_ne_ordering _ _ herr
      | ok w3 =>
        rw [attack_engine _ _ _ _ _ _ _ _ _ _ _ _ hr hd h2 h3] at herr
        cases herr
  · intro hbad
    refine ⟨"`" ++ ordering ++ "` is invalid", ?_⟩
    rw [(hinv hbad).1, String.append_assoc, String.append_assoc]
    rfl
  · intro hb
    subst hb
    rw [(hinv ⟨by decide, by decide⟩).1]
    rfl

/-- Witness of C9: the ordering "banana" at rate 50 for one second. -/
theorem attack_ordering_error_witness :
    (50 : Nat) ≠ 0 ∧ (1000000000 : Int) ≠ 0 ∧
    (attack oneHitEnv 50 1000000000 "banana" "stdout" 10 0 [] [] freshWorld).1
      = .error "Ordering: `banana` is invalid" ∧
    (attack oneHitEnv 50 1000000000 "banana" "stdout" 10 0 [] [] freshWorld).2.engineCalls
      = [] :=
  ⟨by decide, by decide,
   (attack_ordering_error oneHitEnv 50 1000000000 "banana" "stdout" 10 0 [] []
      freshWorld (by decide) (by decide)).2.2 rfl,
   ((attack_ordering_error oneHitEnv 50 1000000000 "banana" "stdout" 10 0 [] []
      freshWorld (by decide) (by decide)).2.1 ⟨by decide, by decide⟩).2⟩

/-- C10: a call of `attack` with ordering "sequential" that reaches the engine
never shuffles (the log of shuffles is unchanged) and calls the engine exactly
once, with a target list of the same length as the caller's list whose targets
are, position by position, the caller's targets with only the header replaced by
the header set. -/
theorem attack_sequential_targets (env : Env) (rate : Nat) (duration : Int)
    (output : String) (redirects timeout : Int) (hdr : Header)
    (previousResults : List Result) (w : World) (res : List Result)
    (h : (attack env rate duration "sequential" output redirects timeout hdr
        previousResults w).1 = .ok res) :
    (attack env rate duration "sequential" output redirects timeout hdr
        previousResults w).2.shuffles = w.shuffles ∧
    ∃ call : EngineCall,
      (attack env rate duration "sequential" output redirects timeout hdr
        previousResults w).2.engineCalls = w.engineCalls ++ [call] ∧
      call.targets.length = w.targets.length ∧
      call.targets.map (fun t => (t.Method, t.URL, t.Body))
        = w.targets.map (fun t => (t.Method, t.URL, t.Body)) ∧
      (∀ t ∈ call.targets, t.Header = hdr) ∧
      call.targets = w.targets.map (fun t => { t with Header := hdr }) := by
  by_cases hr : rate = 0
  · subst hr; rw [attack_rate_zero] at h; cases h
  by_cases hd : duration = 0
  · subst hd; rw [attack_duration_zero _ _ _ _ _ _ _ _ _ hr] at h; cases h
  have h2 : applyOrdering env "sequential"
      { w with targets := Targets.SetHeader w.targets hdr }
      = some { w with targets := Targets.SetHeader w.targets hdr } := by
    simp [applyOrdering]
  cases h3 : openOutput env output { w with targets := Targets.SetHeader w.targets hdr } with
  | error e3 =>
    rw [attack_output_error _ _ _ _ _ _ _ _ _ _ _ _ hr hd h2 h3] at h
    cases h
  | ok w3 =>
    have l3 := openOutput_logs _ _ _ _ h3
    have l4 := configureAttacker_logs redirects timeout w3
    rw [attack_engine _ _ _ _ _ _ _ _ _ _ _ _ hr hd h2 h3]
    refine ⟨by simp [callEngine, l4.2.2.2, l3.2.2.2],
      { targets := (configureAttacker redirects timeout w3).targets, rate := rate,
        duration := duration,
        output := (callEngine env rate duration
          (configureAttacker redirects timeout w3)).1 }, ?_, ?_, ?_, ?_, ?_⟩
    · simp [callEngine, l4.1, l3.1]
    · simp [l4.2.2.1, l3.2.2.1, Targets.SetHeader]
    · simp [l4.2.2.1, l3.2.2.1, Targets.SetHeader]
    · simp [l4.2.2.1, l3.2.2.1, Targets.SetHeader]
    · simp [l4.2.2.1, l3.2.2.1, Targets.SetHeader]

/-- Witness of C10: one sequential pass at rate 50 over the two targets of
`freshWorld`, with a header set of one key. -/
theorem attack_sequential_targets_witness :
    (attack oneHitEnv 50 1000000000 "sequential" "stdout" 10 0 [("X-Test", ["1"])] []
        freshWorld).1 = .ok [resultAt 50] ∧
    (attack oneHitEnv 50 1000000000 "sequential" "stdout" 10 0 [("X-Test", ["1"])] []
        freshWorld).2.shuffles = freshWorld.shuffles :=
  ⟨rfl,
   (attack_sequential_targets oneHitEnv 50 1000000000 "stdout" 10 0 [("X-Test", ["1"])] []
      freshWorld [resultAt 50] rfl).1⟩

/-! ## Contiguity of rates -/

theorem runPrefix_of_not_mem (r : Nat) : ∀ l : List Nat, r ∉ l → runPrefix r l
  | [], _ => trivial
  | a :: t, h => by
    have ha : a ≠ r := fun e => h (by simp [e])
    have ht : r ∉ t := fun e => h (List.mem_cons_of_mem _ e)
    simp [runPrefix, ha, ht]

theorem runPrefix_getElem? (r : Nat) : ∀ (t : List Nat), runPrefix r t →
    ∀ n m : Nat, m < n → t[n]? = some r → t[m]? = some r
  | [], _ => by simp
  | b :: u, h => by
    intro n m hmn hn
    cases n with
    | zero => omega
    | succ n =>
      rw [List.getElem?_cons_succ] at hn
      by_cases hb : b = r
      · simp only [runPrefix, hb, if_true] at h
        cases m with
        | zero => simp [hb]
        | succ m =>
          rw [List.getElem?_cons_succ]
          exact runPrefix_getElem? r u h n m (by omega) hn
      · simp only [runPrefix, hb, if_false] at h
        exact absurd (List.getElem?_mem hn) h

theorem runPrefix_of_getElem? (r : Nat) : ∀ (t : List Nat),
    (∀ n m : Nat, m < n → t[n]? = some r → t[m]? = some r) → runPrefix r t
  | [], _ => trivial
  | b :: u, h => by
    by_cases hb : b = r
    · simp only [runPrefix, hb, if_true]
      apply runPrefix_of_getElem? r u
      intro n m hmn hn
      have := h (n + 1) (m + 1) (by omega) (by simpa using hn)
      simpa using this
    · simp only [runPrefix, hb, if_false]
      intro hmem
      obtain ⟨n, hn⟩ := List.getElem?_of_mem hmem
      have := h (n + 1) 0 (by omega) (by simpa using hn)
      simp at this
      exact hb this

theorem Contiguous.tail {a : Nat} {t : List Nat} (h : Contiguous (a :: t)) :
    Contiguous t := by
  intro k hk j hj i hi he
  have := h (k + 1) (by simp; omega) (j + 1) (by omega) (i + 1) (by omega)
    (by simpa using he)
  simpa using this

theorem ContiguousRec.contiguous : ∀ {l : List Nat}, ContiguousRec l → Contiguous l
  | [], _ => by intro k hk; simp at hk
  | a :: t, h => by
    obtain ⟨h1, h2⟩ := h
    have ih := ContiguousRec.contiguous h2
    intro k hk j hj i hi he
    cases k with
    | zero => omega
    | succ k =>
      cases j with
      | zero => omega
      | succ j =>
        cases i with
        | zero =>
          simp only [List.getElem?_cons_succ, List.getElem?_cons_zero] at he ⊢
          exact runPrefix_getElem? a t h1 k j (by omega) he.symm
        | succ i =>
          simp only [List.getElem?_cons_succ] at he ⊢
          exact ih k (by simpa using hk) j (by omega) i (by omega) he

theorem Contiguous.contiguousRec : ∀ {l : List Nat}, Contiguous l → ContiguousRec l
  | [], _ => trivial
  | a :: t, h => by
    refine ⟨?_, Contiguous.contiguousRec h.tail⟩
    apply runPrefix_of_getElem?
    intro n m hmn hn
    have hlen : n < t.length := by
      by_contra hge
      rw [List.getElem?_eq_none (by omega)] at hn
      cases hn
    have := h (n + 1) (by simp; omega) (m + 1) (by omega) 0 (by omega)
      (by simpa using hn.symm)
    simpa using this

theorem mem_schedule_of_mem_flatten {schedule : List Nat} {passes : List (List Nat)}
    (htag : List.Forall₂ (fun r p => ∀ x ∈ p, x = r) schedule passes) :
    ∀ x ∈ passes.flatten, x ∈ schedule := by
  induction htag with
  | nil => simp
  | @cons r p schedule passes hp _ ih =>
    intro x hx
    rw [List.flatten_cons, List.mem_append] at hx
    rcases hx with hx | hx
    · simp [hp x hx]
    · exact List.mem_cons_of_mem _ (ih x hx)

theorem runPrefix_append (r : Nat) (F : List Nat) (hF : runPrefix r F) :
    ∀ p : List Nat, (∀ x ∈ p, x = r) → runPrefix r (p ++ F)
  | [], _ => hF
  | x :: p, h => by
    have hx : x = r := h x (by simp)
    have := runPrefix_append r F hF p (fun y hy => h y (List.mem_cons_of_mem _ hy))
    simpa [runPrefix, hx] using this

theorem runPrefix_flatten (r : Nat) {schedule : List Nat} {passes : List (List Nat)}
    (htag : List.Forall₂ (fun r p => ∀ x ∈ p, x = r) schedule passes) :
    runPrefix r schedule → runPrefix r passes.flatten := by
  induction htag with
  | nil => intro _; trivial
  | @cons s p schedule passes hp hrest ih =>
    intro h
    rw [List.flatten_cons]
    by_cases hs : s = r
    · simp only [runPrefix, hs, if_true] at h
      exact runPrefix_append r _ (ih h) p (fun x hx => (hp x hx).trans hs)
    · simp only [runPrefix, hs, if_false] at h
      apply runPrefix_of_not_mem
      intro hmem
      rcases List.mem_append.1 hmem with hm | hm
      · exact hs (hp r hm).symm
      · exact h (mem_schedule_of_mem_flatten hrest r hm)

theorem ContiguousRec_append (s : Nat) (F : List Nat) (h1 : runPrefix s F)
    (h2 : ContiguousRec F) :
    ∀ p : List Nat, (∀ x ∈ p, x = s) → ContiguousRec (p ++ F)
  | [], _ => h2
  | x :: p, h => by
    have hx : x = s := h x (by simp)
    have hp : ∀ y ∈ p, y = s := fun y hy => h y (List.mem_cons_of_mem _ hy)
    subst hx
    exact ⟨runPrefix_append x F h1 p hp, ContiguousRec_append x F h1 h2 p hp⟩

theorem ContiguousRec_flatten {schedule : List Nat} {passes : List (List Nat)}
    (htag : List.Forall₂ (fun r p => ∀ x ∈ p, x = r) schedule passes) :
    ContiguousRec schedule → ContiguousRec passes.flatten := by
  induction htag with
  | nil => intro _; trivial
  | @cons s p schedule passes hp hrest ih =>
    intro h
    rw [List.flatten_cons]
    exact ContiguousRec_append s _ (runPrefix_flatten s hrest h.1) (ih h.2) p hp

/-- Concatenating passes that are each tagged with their schedule entry keeps
contiguity: if the schedule is contiguous, so is the sequence of rates of the
concatenated passes. -/
theorem Contiguous_flatten {schedule : List Nat} {passes : List (List Nat)}
    (htag : List.Forall₂ (fun r p => ∀ x ∈ p, x = r) schedule passes)
    (h : Contiguous schedule) : Contiguous passes.flatten :=
  (ContiguousRec_flatten htag h.contiguousRec).contiguous

/-! ## The orchestrator loop -/

/-- The loop over a schedule `pre ++ post` is the loop over `pre` followed, unless
it failed, by the loop over `post`. -/
theorem attackLoop_append (env : Env) (fl : Flags) (post : List Nat) :
    ∀ (pre : List Nat) (results : List Result) (w : World),
      attackLoop env fl (pre ++ post) results w =
        match attackLoop env fl pre results w with
        | (.error err, w1) => (.error err, w1)
        | (.ok results1, w1) => attackLoop env fl post results1 w1
  | [], results, w => by simp [attackLoop]
  | rate :: pre, results, w => by
    simp only [List.cons_append, attackLoop]
    rcases hatt : attack env rate fl.duration fl.ordering fl.output fl.redirects fl.timeout
        fl.hdrs results w with ⟨r1, w1⟩
    cases r1 with
    | error e => rfl
    | ok results1 => exact attackLoop_append env fl post pre results1 w1

/-- A successful run of the loop called the engine once per schedule entry, in
schedule order, with the configured duration, wrote nothing, and its value is the
initial sequence followed by the engine's outputs in that order. -/
theorem attackLoop_ok (env : Env) (fl : Flags) :
    ∀ (schedule : List Nat) (results : List Result) (w : World) (res : List Result)
      (w1 : World), attackLoop env fl schedule results w = (.ok res, w1) →
      ∃ calls : List EngineCall,
        w1.engineCalls = w.engineCalls ++ calls ∧
        calls.map (fun c => c.rate) = schedule ∧
        (∀ c ∈ calls, c.duration = fl.duration ∧
          ∃ w5, c.output = env.Attack w5 c.targets c.rate c.duration) ∧
        res = results ++ (calls.map (fun c => c.output)).flatten ∧
        w1.written = w.written
  | [], results, w, res, w1, h => by
    simp only [attackLoop, Prod.mk.injEq, Except.ok.injEq] at h
    obtain ⟨rfl, rfl⟩ := h
    exact ⟨[], by simp⟩
  | rate :: rest, results, w, res, w1, h => by
    simp only [attackLoop] at h
    rcases hatt : attack env rate fl.duration fl.ordering fl.output fl.redirects fl.timeout
        fl.hdrs results w with ⟨r1, w2⟩
    rw [hatt] at h
    cases r1 with
    | error e => cases h
    | ok results1 =>
      dsimp only at h
      have hok : (attack env rate fl.duration fl.ordering fl.output fl.redirects fl.timeout
          fl.hdrs results w).1 = .ok results1 := by rw [hatt]
      obtain ⟨w5, call, hc1, hc2, hc3, hc4, hc5, hc6⟩ := attack_ok_logs _ _ _ _ _ _ _ _ _ _ _ hok
      rw [hatt] at hc1 hc6
      obtain ⟨calls, h1, h2, h3, h4, h5⟩ := attackLoop_ok env fl rest results1 w2 res w1 h
      refine ⟨call :: calls, ?_, ?_, ?_, ?_, ?_⟩
      · rw [h1, hc1]; simp
      · simp [hc2, h2]
      · intro c hc
        rcases List.mem_cons.1 hc with rfl | hc
        · exact ⟨hc3, w5, by rw [hc4, hc2, hc3]⟩
        · exact h3 c hc
      · rw [h4, hc5]; simp
      · rw [h5, hc6]

/-- When every answer of the engine is tagged with the requested rate, the rates of
the sequence built by a successful run of the loop from the empty sequence are the
concatenation of passes tagged with the schedule entries. -/
theorem attackLoop_tagged (env : Env) (fl : Flags)
    (htag : ∀ (w : World) (ts : List Target) (r : Nat) (d : Int),
      ∀ x ∈ env.Attack w ts r d, x.Rate = r)
    (schedule : List Nat) (w : World) (res : List Result) (w1 : World)
    (h : attackLoop env fl schedule [] w = (.ok res, w1)) :
    ∃ passes : List (List Nat),
      List.Forall₂ (fun r p => ∀ x ∈ p, x = r) schedule passes ∧
      res.map (fun x => x.Rate) = passes.flatten := by
  obtain ⟨calls, h1, h2, h3, h4, h5⟩ := attackLoop_ok env fl schedule [] w res w1 h
  refine ⟨calls.map (fun c => c.output.map (fun x => x.Rate)), ?_, ?_⟩
  · rw [← h2]
    clear h1 h2 h4 h5 h
    induction calls with
    | nil => exact List.Forall₂.nil
    | cons c calls ih =>
      refine List.Forall₂.cons ?_ (ih (fun c hc => h3 c (List.mem_cons_of_mem _ hc)))
      intro x hx
      obtain ⟨y, hy, rfl⟩ := List.mem_map.1 hx
      obtain ⟨_, w5, ho⟩ := h3 c (by simp)
      rw [ho] at hy
      exact htag _ _ _ _ y hy
  · rw [h4, List.nil_append, List.map_flatten, List.map_map]
    rfl

/-! ## The claims on the orchestrator -/

/-- C5, as the claim states it, fails for a schedule that repeats a rate after
another one: with the schedule 10, 50, 10 and an engine that answers each pass with
one result tagged with the pass's rate, the run succeeds and hands
`writeResults` a sequence with rates 10, 50, 10, where the results at positions 0
and 2 carry rate 10 and the result between them does not. -/
theorem repeatedRate_breaks_contiguity :
    (∀ (w : World) (ts : List Target) (r : Nat) (d : Int),
      ∀ x ∈ oneHitEnv.Attack w ts r d, x.Rate = r) ∧
    (attackCmdRun oneHitEnv (flagsFor [10, 50, 10]) freshWorld).1 = none ∧
    (attackCmdRun oneHitEnv (flagsFor [10, 50, 10]) freshWorld).2.written
      = [([resultAt 10, resultAt 50, resultAt 10], "stdout")] ∧
    ¬ Contiguous ([resultAt 10, resultAt 50, resultAt 10].map (fun x => x.Rate)) := by
  refine ⟨?_, rfl, rfl, ?_⟩
  · intro w ts r d x hx
    simp only [oneHitEnv, List.mem_singleton] at hx
    subst hx
    rfl
  · unfold Contiguous
    decide

/-- C5 (amended): when the schedule itself is contiguous (equal rates are adjacent
in it, as in any schedule without duplicates) and the engine tags each pass's
results with that pass's rate, every successful run of the orchestrator loop yields
a sequence in which the results of one rate occupy one contiguous span: for
positions `i < j < k`, if the results at `i` and `k` carry the same rate, so does
the result at `j`. -/
theorem attackLoop_contiguous (env : Env) (fl : Flags) (w : World)
    (res : List Result) (w1 : World)
    (htag : ∀ (w : World) (ts : List Target) (r : Nat) (d : Int),
      ∀ x ∈ env.Attack w ts r d, x.Rate = r)
    (hs : Contiguous fl.rateFlag)
    (h : attackLoop env fl fl.rateFlag [] w = (.ok res, w1)) :
    Contiguous (res.map (fun x => x.Rate)) ∧
    ∀ (i j k : Nat) (x y z : Result), i < j → j < k →
      res[i]? = some x → res[j]? = some y → res[k]? = some z →
      x.Rate = z.Rate → y.Rate = x.Rate := by
  obtain ⟨passes, hp, he⟩ := attackLoop_tagged env fl htag fl.rateFlag w res w1 h
  have hc : Contiguous (res.map (fun x => x.Rate)) := by
    rw [he]
    exact Contiguous_flatten hp hs
  refine ⟨hc, ?_⟩
  intro i j k x y z hij hjk hx hy hz hxz
  have hk : k < (res.map (fun x => x.Rate)).length := by
    rw [List.length_map]
    by_contra hge
    rw [List.getElem?_eq_none (by omega)] at hz
    cases hz
  have := hc k hk j hjk i hij (by simp [hx, hz, hxz])
  simpa [hx, hy] using this

/-- Witness of C5 (amended): the schedule 10, 10, 50 against an engine that answers
each pass with one result tagged with the pass's rate. -/
theorem attackLoop_contiguous_witness :
    Contiguous (flagsFor [10, 10, 50]).rateFlag ∧
    Contiguous ([resultAt 10, resultAt 10, resultAt 50].map (fun x => x.Rate)) :=
  ⟨by unfold Contiguous; decide,
   (attackLoop_contiguous oneHitEnv (flagsFor [10, 10, 50]) freshWorld
      [resultAt 10, resultAt 10, resultAt 50]
      (attackLoop oneHitEnv (flagsFor [10, 10, 50]) [10, 10, 50] [] freshWorld).2
      (by
        intro w ts r d x hx
        simp only [oneHitEnv, List.mem_singleton] at hx
        subst hx
        rfl)
      (by unfold Contiguous; decide)
      rfl).1⟩

/-- C6: when every pass succeeds, the orchestrator loop has called the engine
exactly once per schedule entry, in schedule order (each call with the entry's rate
and the configured duration, its logged output being the engine's answer), and the
sequence handed to `writeResults`, the only one written, is the concatenation of
the engine's per-pass outputs in that order, starting from the empty sequence. A
successful `attack` returns `previousResults` followed by the results of the new
pass, the earlier results being an unchanged prefix. -/
theorem attackCmd_success (env : Env) (fl : Flags) (w : World)
    (res : List Result) (w1 : World)
    (h : attackLoop env fl fl.rateFlag [] w = (.ok res, w1)) :
    (∃ calls : List EngineCall,
      (attackCmdRun env fl w).2.engineCalls = w.engineCalls ++ calls ∧
      calls.map (fun c => c.rate) = fl.rateFlag ∧
      (∀ c ∈ calls, c.duration = fl.duration ∧
        ∃ w5, c.output = env.Attack w5 c.targets c.rate c.duration) ∧
      res = (calls.map (fun c => c.output)).flatten) ∧
    (attackCmdRun env fl w).2.written = w.written ++ [(res, fl.output)] ∧
    (∀ (rate : Nat) (duration : Int) (ordering output : String) (redirects timeout : Int)
      (hdr : Header) (previousResults : List Result) (w0 : World) (r : List Result),
      (attack env rate duration ordering output redirects timeout hdr previousResults w0).1
        = .ok r →
      ∃ (w5 : World) (call : EngineCall),
        (attack env rate duration ordering output redirects timeout hdr
          previousResults w0).2.engineCalls = w0.engineCalls ++ [call] ∧
        call.output = env.Attack w5 call.targets rate duration ∧
        r = previousResults ++ call.output ∧
        r.take previousResults.length = previousResults) := by
  obtain ⟨calls, h1, h2, h3, h4, h5⟩ := attackLoop_ok env fl fl.rateFlag [] w res w1 h
  refine ⟨⟨calls, ?_, h2, h3, by simpa using h4⟩, ?_, ?_⟩
  · simp [attackCmdRun, h, writeResults, h1]
  · simp [attackCmdRun, h, writeResults, h5]
  · intro rate duration ordering output redirects timeout hdr prev w0 r hr
    obtain ⟨w5, call, hc1, _, _, hc4, hc5, _⟩ := attack_ok_logs _ _ _ _ _ _ _ _ _ _ _ hr
    exact ⟨w5, call, hc1, hc4, hc5, by simp [hc5]⟩

/-- Witness of C6: the schedule 10, 50 against an engine that answers each pass with
one result tagged with the pass's rate. -/
theorem attackCmd_success_witness :
    attackLoop oneHitEnv (flagsFor [10, 50]) (flagsFor [10, 50]).rateFlag [] freshWorld
      = (.ok [resultAt 10, resultAt 50],
          (attackLoop oneHitEnv (flagsFor [10, 50]) [10, 50] [] freshWorld).2) ∧
    (attackCmdRun oneHitEnv (flagsFor [10, 50]) freshWorld).2.written
      = freshWorld.written ++ [([resultAt 10, resultAt 50], (flagsFor [10, 50]).output)] :=
  ⟨rfl,
   (attackCmd_success oneHitEnv (flagsFor [10, 50]) freshWorld
      [resultAt 10, resultAt 50]
      (attackLoop oneHitEnv (flagsFor [10, 50]) [10, 50] [] freshWorld).2 rfl).2.1⟩

/-- C7: if the pass at index `k` (rate `rate`, after the `k` entries `pre`) is the
first whose call of `attack` returns an error, then the command returns exactly
that error, the engine has been called only for the `k` passes before it, one call
per entry of `pre` in order and none for pass `k` or later, and `writeResults` is
never invoked. -/
theorem attackCmd_first_failure (env : Env) (fl : Flags) (w : World)
    (pre post : List Nat) (rate : Nat) (res1 : List Result) (w1 : World) (e : String)
    (hsched : fl.rateFlag = pre ++ rate :: post)
    (hpre : attackLoop env fl pre [] w = (.ok res1, w1))
    (hfail : (attack env rate fl.duration fl.ordering fl.output fl.redirects fl.timeout
        fl.hdrs res1 w1).1 = .error e) :
    (attackCmdRun env fl w).1 = some e ∧
    (∃ calls : List EngineCall,
      (attackCmdRun env fl w).2.engineCalls = w.engineCalls ++ calls ∧
      calls.map (fun c => c.rate) = pre ∧ calls.length = pre.length) ∧
    (attackCmdRun env fl w).2.written = w.written := by
  obtain ⟨calls, h1, h2, _, _, h5⟩ := attackLoop_ok env fl pre [] w res1 w1 hpre
  have hl := attack_error_logs _ _ _ _ _ _ _ _ _ _ _ hfail
  rcases hatt : attack env rate fl.duration fl.ordering fl.output fl.redirects fl.timeout
      fl.hdrs res1 w1 with ⟨r1, w2⟩
  rw [hatt] at hfail hl
  dsimp only at hfail hl
  subst hfail
  have hrun : attackCmdRun env fl w = (some e, w2) := by
    unfold attackCmdRun
    rw [hsched, attackLoop_append, hpre]
    simp only [attackLoop, hatt]
  rw [hrun]
  refine ⟨rfl, ⟨calls, ?_, h2, ?_⟩, ?_⟩
  · show w2.engineCalls = _
    rw [hl.1, h1]
  · rw [← h2, List.length_map]
  · show w2.written = _
    rw [hl.2, h5]

/-- Witness of C7: the schedule 10, 0, 50, whose second pass fails on its zero
rate. -/
theorem attackCmd_first_failure_witness :
    (attackCmdRun oneHitEnv (flagsFor [10, 0, 50]) freshWorld).1
      = some "Rate(s): can't be zero" ∧
    (attackCmdRun oneHitEnv (flagsFor [10, 0, 50]) freshWorld).2.written
      = freshWorld.written :=
  ⟨(attackCmd_first_failure oneHitEnv (flagsFor [10, 0, 50]) freshWorld [10] [50] 0
      [resultAt 10]
      (attackLoop oneHitEnv (flagsFor [10, 0, 50]) [10] [] freshWorld).2
      "Rate(s): can't be zero" rfl rfl rfl).1,
   (attackCmd_first_failure oneHitEnv (flagsFor [10, 0, 50]) freshWorld [10] [50] 0
      [resultAt 10]
      (attackLoop oneHitEnv (flagsFor [10, 0, 50]) [10] [] freshWorld).2
      "Rate(s): can't be zero" rfl rfl rfl).2.2⟩


/-! ## Empty input, group starts and concatenation -/

/-- C15: on the empty result sequence `slicesPerAttackRate` returns the empty list
of groups (no element of the input is read), so `ReportCSV` on empty input writes
the header record and no data record. -/
theorem slicesPerAttackRate_empty {Metrics : Type} (NewMetrics : List Result → Metrics)
    (Csv : Metrics → Nat → List String) :
    slicesPerAttackRate [] = [] ∧
    ReportCSV NewMetrics Csv [] = some [csvHeader] ∧
    ReportCSV NewMetrics Csv []
      = some [["rate", "mean_ms", "p50_ms", "p95_ms", "p99_ms", "max_ms", "bytesIn_B",
          "bytesOut_B", "success_percent"]] :=
  ⟨rfl, rfl, rfl⟩

theorem closeRuns_map_from (rest : List Result) :
    ∀ (i : Nat) (g : ResultGroup),
      (closeRuns rest i g).map (fun x => x.from_)
        = g.from_ :: changePositions g.rate rest i := by
  induction rest with
  | nil => intro i g; simp [closeRuns, changePositions]
  | cons r rest ih =>
    intro i g
    by_cases hr : r.Rate = g.rate
    · simp only [closeRuns, changePositions, hr, ne_eq, not_true_eq_false, if_false]
      exact ih (i + 1) g
    · simp only [closeRuns, changePositions, hr, ne_eq, not_false_eq_true, if_true,
        List.map_cons]
      rw [ih]

theorem changePositions_ge (rest : List Result) :
    ∀ (prev i : Nat), ∀ j ∈ changePositions prev rest i, i ≤ j := by
  induction rest with
  | nil => intro prev i j hj; simp [changePositions] at hj
  | cons r rest ih =>
    intro prev i j hj
    by_cases hr : r.Rate = prev
    · simp only [changePositions, hr, ne_eq, not_true_eq_false, if_false] at hj
      have := ih prev (i + 1) j hj
      omega
    · simp only [changePositions, hr, ne_eq, not_false_eq_true, if_true,
        List.mem_cons] at hj
      rcases hj with rfl | hj
      · exact Nat.le_refl _
      · have := ih r.Rate (i + 1) j hj
        omega

theorem changePositions_nodup (rest : List Result) :
    ∀ (prev i : Nat), (changePositions prev rest i).Nodup := by
  induction rest with
  | nil => intro prev i; simp [changePositions]
  | cons r rest ih =>
    intro prev i
    by_cases hr : r.Rate = prev
    · simp only [changePositions, hr, ne_eq, not_true_eq_false, if_false]
      exact ih prev (i + 1)
    · simp only [changePositions, hr, ne_eq, not_false_eq_true, if_true]
      refine List.nodup_cons.2 ⟨?_, ih r.Rate (i + 1)⟩
      intro hmem
      have := changePositions_ge rest r.Rate (i + 1) i hmem
      omega

theorem mem_changePositions (rs : List Result) (rest : List Result) :
    ∀ (prev i : Nat), rs.drop (i + 1) = rest →
      rs[i]?.map (fun r => r.Rate) = some prev →
      ∀ j, j ∈ changePositions prev rest (i + 1) ↔
        (i + 1 ≤ j ∧ j < rs.length ∧
          rs[j]?.map (fun r => r.Rate) ≠ rs[j - 1]?.map (fun r => r.Rate)) := by
  induction rest with
  | nil =>
    intro prev i hd _ j
    have hlen : rs.length ≤ i + 1 := List.drop_eq_nil_iff.1 hd
    simp only [changePositions, List.not_mem_nil, false_iff]
    omega
  | cons r rest ih =>
    intro prev i hd hprev j
    have hi : rs[i + 1]? = some r := by
      have : (rs.drop (i + 1))[0]? = rs[i + 1 + 0]? := List.getElem?_drop rs (i + 1) 0
      rw [hd] at this
      simpa using this.symm
    have hlt : i + 1 < rs.length := by
      by_contra hge
      rw [List.getElem?_eq_none (by omega)] at hi
      cases hi
    have hd2 : rs.drop (i + 1 + 1) = rest := by
      have := List.drop_drop 1 (i + 1) rs
      rw [hd] at this
      simpa [Nat.add_comm] using this.symm
    have hnext : rs[i + 1]?.map (fun r => r.Rate) = some r.Rate := by simp [hi]
    by_cases hr : r.Rate = prev
    · simp only [changePositions, hr, ne_eq, not_true_eq_false, if_false]
      rw [ih prev (i + 1) hd2 (by rw [hnext, hr]) j]
      constructor
      · rintro ⟨h1, h2, h3⟩
        exact ⟨by omega, h2, h3⟩
      · rintro ⟨h1, h2, h3⟩
        refine ⟨?_, h2, h3⟩
        by_contra hlt2
        have hj : j = i + 1 := by omega
        subst hj
        apply h3
        simp only [Nat.add_sub_cancel]
        rw [hnext, hprev, hr]
    · simp only [changePositions, hr, ne_eq, not_false_eq_true, if_true, List.mem_cons]
      rw [ih r.Rate (i + 1) hd2 hnext j]
      constructor
      · rintro (rfl | ⟨h1, h2, h3⟩)
        · refine ⟨Nat.le_refl _, hlt, ?_⟩
          simp only [Nat.add_sub_cancel]
          rw [hnext, hprev]
          simpa using hr
        · exact ⟨by omega, h2, h3⟩
      · rintro ⟨h1, h2, h3⟩
        by_cases hj : j = i + 1
        · exact Or.inl hj
        · exact Or.inr ⟨by omega, h2, h3⟩

/-- C16: for a non-empty result sequence, contiguous or not, the start indices of
the groups of `slicesPerAttackRate` are exactly 0 and every index `i >= 1` whose
rate differs from the rate at `i - 1`; so the number of groups is 1 plus the number
of adjacent rate changes. It may exceed the number of distinct rates: the rates
10, 50, 10 give the three groups `[0,1)` at 10, `[1,2)` at 50 and `[2,3)` at 10 for
two distinct rates. -/
theorem slicesPerAttackRate_starts (rs : List Result) (h : rs ≠ []) :
    (∀ i, i ∈ (slicesPerAttackRate rs).map (fun g => g.from_) ↔
      (i = 0 ∨ (1 ≤ i ∧ i < rs.length ∧
        rs[i]?.map (fun r => r.Rate) ≠ rs[i - 1]?.map (fun r => r.Rate)))) ∧
    ((slicesPerAttackRate rs).map (fun g => g.from_)).Nodup ∧
    (slicesPerAttackRate rs).length
      = 1 + ((Finset.range rs.length).filter (fun i =>
          1 ≤ i ∧ rs[i]?.map (fun r => r.Rate) ≠ rs[i - 1]?.map (fun r => r.Rate))).card ∧
    slicesPerAttackRate [resultAt 10, resultAt 50, resultAt 10]
      = [{ from_ := 0, to_ := 1, rate := 10 }, { from_ := 1, to_ := 2, rate := 50 },
          { from_ := 2, to_ := 3, rate := 10 }] ∧
    ([resultAt 10, resultAt 50, resultAt 10].map (fun r => r.Rate)).dedup.length = 2 := by
  cases rs with
  | nil => exact absurd rfl h
  | cons r rest =>
    have hmap := closeRuns_map_from rest 1 { from_ := 0, to_ := 0, rate := r.Rate }
    rw [← slicesPerAttackRate_cons] at hmap
    have hmem := mem_changePositions (r :: rest) rest r.Rate 0 (by simp) (by simp)
    have hge := changePositions_ge rest r.Rate 1
    have hnd := changePositions_nodup rest r.Rate 1
    simp only [Nat.zero_add] at hmem
    refine ⟨?_, ?_, ?_, by decide, by decide⟩
    · intro i
      rw [hmap, List.mem_cons, hmem i]
    · rw [hmap]
      refine List.nodup_cons.2 ⟨?_, hnd⟩
      intro h0
      have := hge 0 h0
      omega
    · have hlen : (slicesPerAttackRate (r :: rest)).length
          = 1 + (changePositions r.Rate rest 1).length := by
        have := congrArg List.length hmap
        simp only [List.length_map, List.length_cons] at this
        omega
      rw [hlen, ← List.toFinset_card_of_nodup hnd]
      congr 2
      ext i
      simp only [List.mem_toFinset, Finset.mem_filter, Finset.mem_range]
      rw [hmem i]
      constructor
      · rintro ⟨h1, h2, h3⟩; exact ⟨h2, h1, h3⟩
      · rintro ⟨h2, h1, h3⟩; exact ⟨h1, h2, h3⟩

/-- Witness of C16 on the rates 10, 50, 10: three groups for two adjacent rate
changes. -/
theorem slicesPerAttackRate_starts_witness :
    [resultAt 10, resultAt 50, resultAt 10] ≠ [] ∧
    ((slicesPerAttackRate [resultAt 10, resultAt 50, resultAt 10]).map
      (fun g => g.from_)).Nodup :=
  ⟨List.cons_ne_nil _ _,
   (slicesPerAttackRate_starts [resultAt 10, resultAt 50, resultAt 10]
      (List.cons_ne_nil _ _)).2.1⟩

/-! ### Partitioning a concatenation -/

theorem slicesLoop_append (y : List Result) :
    ∀ (x : List Result) (i : Nat) (gs : List ResultGroup) (g : ResultGroup),
      slicesLoop (x ++ y) i gs g
        = slicesLoop y (i + x.length) (slicesLoop x i gs g).1 (slicesLoop x i gs g).2
  | [], i, gs, g => by simp [slicesLoop]
  | r :: x, i, gs, g => by
    by_cases hr : r.Rate = g.rate
    · have ih := slicesLoop_append y x (i + 1) gs g
      simp only [List.cons_append, slicesLoop, hr, ne_eq, not_true_eq_false, if_false,
        List.length_cons]
      rw [show i + (x.length + 1) = i + 1 + x.length by omega]
      exact ih
    · have ih := slicesLoop_append y x (i + 1) (gs ++ [{ g with to_ := i }])
        { from_ := i, to_ := 0, rate := r.Rate }
      simp only [List.cons_append, slicesLoop, hr, ne_eq, not_false_eq_true, if_true,
        List.length_cons]
      rw [show i + (x.length + 1) = i + 1 + x.length by omega]
      exact ih

theorem slicesLoop_rate :
    ∀ (x : List Result) (i : Nat) (gs : List ResultGroup) (g : ResultGroup),
      (slicesLoop x i gs g).2.rate = (x.getLast?.map (fun r => r.Rate)).getD g.rate
  | [], i, gs, g => by simp [slicesLoop]
  | r :: x, i, gs, g => by
    by_cases hr : r.Rate = g.rate
    · simp only [slicesLoop, hr, ne_eq, not_true_eq_false, if_false]
      rw [slicesLoop_rate x (i + 1) gs g, List.getLast?_cons]
      cases x.getLast? <;> simp [hr]
    · simp only [slicesLoop, hr, ne_eq, not_false_eq_true, if_true]
      rw [slicesLoop_rate x (i + 1), List.getLast?_cons]
      cases x.getLast? <;> simp

theorem closeRuns_shift (n : Nat) (rest : List Result) :
    ∀ (i f t1 t2 rt : Nat),
      closeRuns rest (i + n) { from_ := f + n, to_ := t1, rate := rt }
        = shiftGroups n (closeRuns rest i { from_ := f, to_ := t2, rate := rt }) := by
  induction rest with
  | nil => intro i f t1 t2 rt; simp [closeRuns, shiftGroups]
  | cons r rest ih =>
    intro i f t1 t2 rt
    by_cases hr : r.Rate = rt
    · simp only [closeRuns, hr, ne_eq, not_true_eq_false, if_false]
      rw [show i + n + 1 = i + 1 + n by omega]
      exact ih (i + 1) f t1 t2 rt
    · simp only [closeRuns, hr, ne_eq, not_false_eq_true, if_true]
      rw [show i + n + 1 = i + 1 + n by omega, ih (i + 1) i 0 0 r.Rate]
      simp [shiftGroups]

theorem closeRuns_merge (n : Nat) (rest : List Result) :
    ∀ (i : Nat) (g g2 : ResultGroup), g2.rate = g.rate →
      closeRuns rest (i + n) g2 =
        match closeRuns rest i g with
        | [] => []
        | x :: t => { g2 with to_ := x.to_ + n } :: shiftGroups n t := by
  induction rest with
  | nil => intro i g g2 _; simp [closeRuns, shiftGroups]
  | cons r rest ih =>
    intro i g g2 hg
    obtain ⟨f2, t2, rt2⟩ := g2
    obtain ⟨f, t, rt⟩ := g
    simp only at hg
    subst hg
    by_cases hr : r.Rate = rt2
    · simp only [closeRuns, hr, ne_eq, not_true_eq_false, if_false]
      rw [show i + n + 1 = i + 1 + n by omega]
      exact ih (i + 1) { from_ := f, to_ := t, rate := rt2 }
        { from_ := f2, to_ := t2, rate := rt2 } rfl
    · simp only [closeRuns, hr, ne_eq, not_false_eq_true, if_true]
      rw [show i + n + 1 = i + 1 + n by omega, closeRuns_shift n rest (i + 1) i 0 0 r.Rate]

/-- The groups of `a ++ b`, for non-empty `a`, are the closed groups of the loop
over `a` followed by what the loop still closes over `b`, started from the running
group left by `a`; the groups of `a` alone are those closed groups followed by the
running group closed at `len(a)`. -/
theorem slicesPerAttackRate_append_loop (r : Result) (a b : List Result) :
    slicesPerAttackRate (r :: a ++ b)
      = (slicesLoop (r :: a) 0 [] { from_ := 0, to_ := 0, rate := r.Rate }).1 ++
          closeRuns b (a.length + 1)
            (slicesLoop (r :: a) 0 [] { from_ := 0, to_ := 0, rate := r.Rate }).2 ∧
    slicesPerAttackRate (r :: a)
      = (slicesLoop (r :: a) 0 [] { from_ := 0, to_ := 0, rate := r.Rate }).1 ++
          [{ (slicesLoop (r :: a) 0 [] { from_ := 0, to_ := 0, rate := r.Rate }).2 with
              to_ := a.length + 1 }] := by
  refine ⟨?_, rfl⟩
  have h1 := slicesLoop_append b (r :: a) 0 [] { from_ := 0, to_ := 0, rate := r.Rate }
  have h2 := slicesLoop_closeRuns b (0 + (r :: a).length)
    (slicesLoop (r :: a) 0 [] { from_ := 0, to_ := 0, rate := r.Rate }).1
    (slicesLoop (r :: a) 0 [] { from_ := 0, to_ := 0, rate := r.Rate }).2
  rw [← h1] at h2
  simp only [Nat.zero_add, List.length_cons] at h2
  rw [← h2]
  simp only [slicesPerAttackRate, List.cons_append, List.length_cons, List.length_append]
  congr 3
  omega

/-- C17: partitioning is compositional over concatenation. For non-empty `a` and
`b`: if the last rate of `a` differs from the first rate of `b`, the groups of
`a ++ b` are the groups of `a` followed by the groups of `b` shifted by `len(a)`;
if the two rates are equal, they are the same except that the last group of `a`
and the first shifted group of `b` are merged into one group spanning both. -/
theorem slicesPerAttackRate_append (a b : List Result) (ha : a ≠ []) (hb : b ≠ []) :
    (a.getLast?.map (fun r => r.Rate) ≠ b.head?.map (fun r => r.Rate) →
      slicesPerAttackRate (a ++ b)
        = slicesPerAttackRate a ++ shiftGroups a.length (slicesPerAttackRate b)) ∧
    (a.getLast?.map (fun r => r.Rate) = b.head?.map (fun r => r.Rate) →
      ∃ (ia : List ResultGroup) (ga gb : ResultGroup) (tb : List ResultGroup),
        slicesPerAttackRate a = ia ++ [ga] ∧
        slicesPerAttackRate b = gb :: tb ∧
        slicesPerAttackRate (a ++ b)
          = ia ++ [{ from_ := ga.from_, to_ := gb.to_ + a.length, rate := ga.rate }] ++
              shiftGroups a.length tb) := by
  cases a with
  | nil => exact absurd rfl ha
  | cons r a =>
    cases b with
    | nil => exact absurd rfl hb
    | cons y b =>
      obtain ⟨hab, haa⟩ := slicesPerAttackRate_append_loop r a (y :: b)
      have hrate := slicesLoop_rate (r :: a) 0 [] { from_ := 0, to_ := 0, rate := r.Rate }
      have hlast : (r :: a).getLast?.map (fun r => r.Rate)
          = some (slicesLoop (r :: a) 0 [] { from_ := 0, to_ := 0, rate := r.Rate }).2.rate := by
        rw [hrate]
        cases hl : (r :: a).getLast? with
        | none => simp at hl
        | some z => simp
      rw [hlast]
      simp only [List.head?_cons, Option.map_some', ne_eq, Option.some.injEq, List.length_cons]
      generalize slicesLoop (r :: a) 0 [] { from_ := 0, to_ := 0, rate := r.Rate } = st
        at hab haa
      constructor
      · intro hne
        have hne2 : ¬ y.Rate = st.2.rate := fun e => hne e.symm
        rw [hab, haa, slicesPerAttackRate_cons]
        simp only [closeRuns, hne2, ne_eq, not_false_eq_true, if_true]
        have := closeRuns_shift (a.length + 1) b 1 0 0 0 y.Rate
        rw [show 1 + (a.length + 1) = a.length + 1 + 1 by omega, Nat.zero_add] at this
        rw [this]
        simp
      · intro heq
        obtain ⟨j, t, hj⟩ := closeRuns_head b 1 { from_ := 0, to_ := 0, rate := y.Rate }
        have hm := closeRuns_merge (a.length + 1) b 1
          { from_ := 0, to_ := 0, rate := y.Rate } st.2 heq
        rw [hj] at hm
        dsimp only at hm
        refine ⟨st.1, { st.2 with to_ := a.length + 1 },
          { from_ := 0, to_ := j, rate := y.Rate }, t, haa, ?_, ?_⟩
        · rw [slicesPerAttackRate_cons, hj]
        · rw [hab]
          simp only [closeRuns, heq, ne_eq, not_true_eq_false, if_false]
          rw [show a.length + 1 + 1 = 1 + (a.length + 1) by omega, hm]
          simp [heq]

/-- Witness of C17: one result at rate 10 followed by one result at rate 50, the
rates at the seam being different. -/
theorem slicesPerAttackRate_append_witness :
    [resultAt 10] ≠ [] ∧ [resultAt 50] ≠ [] ∧
    slicesPerAttackRate ([resultAt 10] ++ [resultAt 50])
      = slicesPerAttackRate [resultAt 10] ++
          shiftGroups [resultAt 10].length (slicesPerAttackRate [resultAt 50]) :=
  ⟨List.cons_ne_nil _ _, List.cons_ne_nil _ _,
   (slicesPerAttackRate_append [resultAt 10] [resultAt 50]
      (List.cons_ne_nil _ _) (List.cons_ne_nil _ _)).1 (by decide)⟩

/-! ## Flag values: splitting and parsing -/

theorem splitOn_ne_nil (sep : Char) : ∀ l : List Char, splitOn sep l ≠ []
  | [] => by simp [splitOn]
  | c :: cs => by
    by_cases h : c = sep
    · simp [splitOn, h]
    · have := splitOn_ne_nil sep cs
      cases hs : splitOn sep cs with
      | nil => exact absurd hs this
      | cons p ps => simp [splitOn, h, hs]

theorem splitOn_of_not_mem (sep : Char) : ∀ l : List Char, sep ∉ l → splitOn sep l = [l]
  | [], _ => rfl
  | c :: cs, h => by
    have hc : c ≠ sep := fun e => h (by simp [e])
    have := splitOn_of_not_mem sep cs (fun e => h (List.mem_cons_of_mem _ e))
    simp [splitOn, hc, this]

theorem splitOn_append (sep : Char) (b : List Char) :
    ∀ a : List Char, sep ∉ a → splitOn sep (a ++ sep :: b) = a :: splitOn sep b
  | [], _ => by simp [splitOn]
  | c :: cs, h => by
    have hc : c ≠ sep := fun e => h (by simp [e])
    have := splitOn_append sep b cs (fun e => h (List.mem_cons_of_mem _ e))
    simp [splitOn, hc, this]

/-- A first piece followed by further pieces comes from an input that starts with
that piece, free of the separator, then the separator, then an input giving the
further pieces. -/
theorem splitOn_eq_cons (sep : Char) :
    ∀ (l p : List Char) (ps : List (List Char)), splitOn sep l = p :: ps →
      sep ∉ p ∧ ((ps = [] ∧ l = p) ∨ (∃ b, l = p ++ sep :: b ∧ splitOn sep b = ps))
  | [], p, ps, h => by
    simp only [splitOn, List.cons.injEq] at h
    obtain ⟨rfl, rfl⟩ := h
    simp
  | c :: cs, p, ps, h => by
    by_cases hc : c = sep
    · simp only [splitOn, hc, if_true, List.cons.injEq] at h
      obtain ⟨rfl, rfl⟩ := h
      subst hc
      exact ⟨by simp, Or.inr ⟨cs, by simp, rfl⟩⟩
    · cases hs : splitOn sep cs with
      | nil => exact absurd hs (splitOn_ne_nil sep cs)
      | cons q qs =>
        simp only [splitOn, hc, if_false, hs, List.cons.injEq] at h
        obtain ⟨rfl, rfl⟩ := h
        obtain ⟨hq, hrest⟩ := splitOn_eq_cons sep cs q qs hs
        refine ⟨?_, ?_⟩
        · intro hm
          rcases List.mem_cons.1 hm with e | e
          · exact hc e.symm
          · exact hq e
        · rcases hrest with ⟨h1, h2⟩ | ⟨b, h1, h2⟩
          · exact Or.inl ⟨h1, by rw [h2]⟩
          · exact Or.inr ⟨b, by rw [h1]; rfl, h2⟩

theorem foldl_digits_ge (cs : List Char) :
    ∀ n : Nat, n ≤ cs.foldl (fun n c => n * 10 + (c.toNat - 48)) n := by
  induction cs with
  | nil => intro n; exact Nat.le_refl _
  | cons c cs ih =>
    intro n
    have := ih (n * 10 + (c.toNat - 48))
    simp only [List.foldl_cons]
    omega

/-- The digit loop succeeds exactly on digits whose number, continued from the
accumulator, fits in 64 bits, and then returns that number. -/
theorem parseUintLoop_ok (cs : List Char) :
    ∀ (n m : Nat), n ≤ maxUint64 →
      (parseUintLoop cs n = .ok m ↔
        ((∀ c ∈ cs, '0' ≤ c ∧ c ≤ '9') ∧
          cs.foldl (fun n c => n * 10 + (c.toNat - 48)) n ≤ maxUint64 ∧
          m = cs.foldl (fun n c => n * 10 + (c.toNat - 48)) n)) := by
  induction cs with
  | nil =>
    intro n m hn
    simp only [parseUintLoop, Except.ok.injEq, List.not_mem_nil, false_imp_iff,
      implies_true, List.foldl_nil, true_and]
    constructor
    · rintro rfl; exact ⟨hn, rfl⟩
    · rintro ⟨_, rfl⟩; rfl
  | cons c cs ih =>
    intro n m hn
    have hmono := foldl_digits_ge cs (n * 10 + (c.toNat - 48))
    by_cases hd : 48 ≤ c.toNat ∧ c.toNat ≤ 57
    · have hc : '0' ≤ c ∧ c ≤ '9' := hd
      simp only [parseUintLoop, digitVal, hd, and_self, if_true, List.foldl_cons,
        List.mem_cons, forall_eq_or_imp, hc, true_and]
      simp only [maxUint64, Nat.reducePow, Nat.reduceSub, Nat.reduceDiv, Nat.reduceAdd]
        at hn hmono ih ⊢
      by_cases hcut : n ≥ 1844674407370955162
      · simp only [hcut, if_true]
        constructor
        · intro h; cases h
        · rintro ⟨_, h2, _⟩; omega
      · simp only [hcut, if_false]
        by_cases hov : n * 10 + (c.toNat - 48) ≥ 18446744073709551616
        · have hw : (n * 10 + (c.toNat - 48)) % 18446744073709551616 < n * 10 := by omega
          simp only [hw, true_or, if_true]
          constructor
          · intro h; cases h
          · rintro ⟨_, h2, _⟩; omega
        · have he : (n * 10 + (c.toNat - 48)) % 18446744073709551616
              = n * 10 + (c.toNat - 48) := Nat.mod_eq_of_lt (by omega)
          have hw : ¬ ((n * 10 + (c.toNat - 48)) < n * 10 ∨
              (n * 10 + (c.toNat - 48)) > 18446744073709551615) := by omega
          simp only [he, hw, if_false]
          exact ih (n * 10 + (c.toNat - 48)) m (by omega)
    · have hc : ¬ ('0' ≤ c ∧ c ≤ '9') := hd
      simp only [parseUintLoop, digitVal, hd, if_false, List.mem_cons, forall_eq_or_imp, hc,
        false_and]
      constructor
      · intro h; cases h
      · intro h; exact h.elim

/-- The parse of one piece succeeds exactly on a non-empty string of decimal digits
whose number fits in 64 bits, and then returns that number. -/
theorem ParseUint_ok (quote : String → String) (s : String) (m : Nat) :
    strconv.ParseUint quote s = .ok m ↔
      (s ≠ "" ∧ (∀ c ∈ s.data, '0' ≤ c ∧ c ≤ '9') ∧ decimalValue s < 2 ^ 64 ∧
        m = decimalValue s) := by
  have key := parseUintLoop_ok s.data 0 m (by simp [maxUint64])
  have hmax : ∀ x : Nat, x ≤ maxUint64 ↔ x < 2 ^ 64 := by
    intro x; simp only [maxUint64, Nat.reducePow, Nat.reduceSub]; omega
  unfold strconv.ParseUint
  by_cases hs : s = ""
  · simp [hs]
  · simp only [hs, if_false, ne_eq, not_false_eq_true, true_and, decimalValue]
    rw [← hmax, ← key]
    cases hl : parseUintLoop s.data 0 with
    | ok n => simp
    | error e => cases e <;> simp

/-- A failed parse of one piece returns the library's message, unchanged. -/
theorem ParseUint_error (quote : String → String) (s e : String)
    (h : strconv.ParseUint quote s = .error e) :
    e = "strconv.ParseUint: parsing " ++ quote s ++ ": invalid syntax" ∨
    e = "strconv.ParseUint: parsing " ++ quote s ++ ": value out of range" := by
  unfold strconv.ParseUint at h
  split_ifs at h
  · injection h with h; exact Or.inl h.symm
  · split at h
    · cases h
    · injection h with h; exact Or.inl h.symm
    · injection h with h; exact Or.inr h.symm

theorem rateListSetLoop_ok (quote : String → String) :
    ∀ (pieces : List String) (i : List Nat),
      ((rateListSetLoop quote pieces i).1 = none ↔
        ∀ p ∈ pieces, p ≠ "" ∧ (∀ c ∈ p.data, '0' ≤ c ∧ c ≤ '9') ∧
          decimalValue p < 2 ^ 64) ∧
      ((rateListSetLoop quote pieces i).1 = none →
        (rateListSetLoop quote pieces i).2 = i ++ pieces.map decimalValue)
  | [], i => by simp [rateListSetLoop]
  | p :: ps, i => by
    cases hp : strconv.ParseUint quote p with
    | error e =>
      have hbad : ¬ (p ≠ "" ∧ (∀ c ∈ p.data, '0' ≤ c ∧ c ≤ '9') ∧
          decimalValue p < 2 ^ 64) := by
        intro hv
        have := (ParseUint_ok quote p (decimalValue p)).2 ⟨hv.1, hv.2.1, hv.2.2, rfl⟩
        rw [hp] at this
        cases this
      simp only [rateListSetLoop, hp, List.mem_cons, forall_eq_or_imp]
      exact ⟨⟨fun h => (by cases h), fun h => absurd h.1 hbad⟩, fun h => (by cases h)⟩
    | ok m =>
      obtain ⟨h1, h2, h3, h4⟩ := (ParseUint_ok quote p m).1 hp
      obtain ⟨ih1, ih2⟩ := rateListSetLoop_ok quote ps (i ++ [m])
      simp only [rateListSetLoop, hp, List.mem_cons, forall_eq_or_imp, List.map_cons]
      refine ⟨?_, ?_⟩
      · rw [ih1]
        exact ⟨fun h => ⟨⟨h1, h2, h3⟩, h⟩, fun h => h.2⟩
      · intro h
        rw [ih2 h, h4]
        simp

theorem rateListSetLoop_error (quote : String → String) :
    ∀ (pieces : List String) (i : List Nat) (e : String),
      (rateListSetLoop quote pieces i).1 = some e →
      ∃ p ∈ pieces, strconv.ParseUint quote p = .error e
  | [], i, e, h => by simp [rateListSetLoop] at h
  | p :: ps, i, e, h => by
    cases hp : strconv.ParseUint quote p with
    | error e2 =>
      simp only [rateListSetLoop, hp, Option.some.injEq] at h
      subst h
      exact ⟨p, by simp, hp⟩
    | ok m =>
      simp only [rateListSetLoop, hp] at h
      obtain ⟨q, hq, he⟩ := rateListSetLoop_error quote ps (i ++ [m]) e h
      exact ⟨q, List.mem_cons_of_mem _ hq, he⟩

theorem parseUintMessage_ne_rate (x rest : String) :
    "strconv.ParseUint: parsing " ++ x ≠ errRatePrefix ++ rest := by
  intro h
  have hd := congrArg String.data h
  rw [String.data_append, String.data_append] at hd
  have h1 : ("strconv.ParseUint: parsing " : String).data
      = 's' :: ("trconv.ParseUint: parsing " : String).data := rfl
  have h2 : errRatePrefix.data = 'R' :: ("ate(s): " : String).data := rfl
  rw [h1, h2] at hd
  simp at hd

/-! ## The claims on the rate list -/

/-- C12: `rateList.Set(v)` succeeds if and only if every piece of `v` between commas
is a non-empty string of decimal digits whose number fits in an unsigned 64-bit
integer; on success the rate list is the list held before the call followed by the
numbers of the pieces in input order, duplicates kept. So "10,50,10" appends
10, 50, 10, and a sign, a blank, an empty piece, an empty string or 2^64 make the
call fail, while 2^64 - 1 is accepted. -/
theorem rateList_Set_success (quote : String → String) (i : List Nat) (v : String) :
    ((rateList.Set quote i v).1 = none ↔
      ∀ p ∈ strings.Split v ',',
        p ≠ "" ∧ (∀ c ∈ p.data, '0' ≤ c ∧ c ≤ '9') ∧ decimalValue p < 2 ^ 64) ∧
    ((rateList.Set quote i v).1 = none →
      (rateList.Set quote i v).2 = i ++ (strings.Split v ',').map decimalValue) ∧
    strings.Split "10,,5" ',' = ["10", "", "5"] ∧
    rateList.Set quote [7] "10,50,10" = (none, [7, 10, 50, 10]) ∧
    rateList.Set quote [] "18446744073709551615" = (none, [18446744073709551615]) ∧
    (rateList.Set quote [] "18446744073709551616").1 ≠ none ∧
    (rateList.Set quote [] "+5").1 ≠ none ∧
    (rateList.Set quote [] "-5").1 ≠ none ∧
    (rateList.Set quote [] "10, 50").1 ≠ none ∧
    (rateList.Set quote [] "10,,5").1 ≠ none ∧
    (rateList.Set quote [] "").1 ≠ none := by
  obtain ⟨h1, h2⟩ := rateListSetLoop_ok quote (strings.Split v ',') i
  refine ⟨h1, h2, rfl, rfl, rfl, ?_, ?_, ?_, ?_, ?_, ?_⟩ <;>
    exact fun h => Option.noConfusion h

/-- Witness of C12: the value "10,50,10" set on a list holding 7. -/
theorem rateList_Set_success_witness :
    (rateList.Set quotePlain [7] "10,50,10").2
      = [7] ++ (strings.Split "10,50,10" ',').map decimalValue :=
  (rateList_Set_success quotePlain [7] "10,50,10").2.1 rfl

/-- C13, as the claim states it, fails: on the value "abc" the error of
`rateList.Set` is the error of `strconv.ParseUint`, whose message starts with
"strconv.ParseUint: parsing " and not with "Rate(s): ". -/
theorem rateList_Set_error_unprefixed :
    (rateList.Set quotePlain [] "abc").1
      = some ("strconv.ParseUint: parsing " ++ quotePlain "abc" ++ ": invalid syntax") ∧
    ¬ ∃ rest, "strconv.ParseUint: parsing " ++ quotePlain "abc" ++ ": invalid syntax"
      = "Rate(s): " ++ rest := by
  refine ⟨rfl, ?_⟩
  rintro ⟨rest, h⟩
  rw [String.append_assoc] at h
  exact parseUintMessage_ne_rate _ _ h

/-- C13 (amended): whenever `rateList.Set` fails, the error it returns is the error
of `strconv.ParseUint` for an element of the list that is not a non-empty string of
decimal digits fitting in 64 bits, returned unchanged: its message is
"strconv.ParseUint: parsing <quoted element>: invalid syntax" or
"...: value out of range", and it does not begin with "Rate(s): ". -/
theorem rateList_Set_error (quote : String → String) (i : List Nat) (v e : String)
    (h : (rateList.Set quote i v).1 = some e) :
    (∃ p ∈ strings.Split v ',',
      ¬ (p ≠ "" ∧ (∀ c ∈ p.data, '0' ≤ c ∧ c ≤ '9') ∧ decimalValue p < 2 ^ 64) ∧
      (e = "strconv.ParseUint: parsing " ++ quote p ++ ": invalid syntax" ∨
        e = "strconv.ParseUint: parsing " ++ quote p ++ ": value out of range")) ∧
    ¬ ∃ rest, e = "Rate(s): " ++ rest := by
  obtain ⟨p, hp, he⟩ := rateListSetLoop_error quote (strings.Split v ',') i e h
  have hmsg := ParseUint_error quote p e he
  refine ⟨⟨p, hp, ?_, hmsg⟩, ?_⟩
  · intro hv
    have := (ParseUint_ok quote p (decimalValue p)).2 ⟨hv.1, hv.2.1, hv.2.2, rfl⟩
    rw [he] at this
    cases this
  · rintro ⟨rest, hr⟩
    rcases hmsg with hm | hm
    · rw [hm, String.append_assoc] at hr
      exact parseUintMessage_ne_rate _ _ hr
    · rw [hm, String.append_assoc] at hr
      exact parseUintMessage_ne_rate _ _ hr

/-- Witness of C13 (amended): the value "10,x" fails on its second element. -/
theorem rateList_Set_error_witness :
    (rateList.Set quotePlain [] "10,x").1
      = some ("strconv.ParseUint: parsing " ++ quotePlain "x" ++ ": invalid syntax") ∧
    ¬ ∃ rest, "strconv.ParseUint: parsing " ++ quotePlain "x" ++ ": invalid syntax"
      = "Rate(s): " ++ rest :=
  ⟨rfl,
   (rateList_Set_error quotePlain [] "10,x"
      ("strconv.ParseUint: parsing " ++ quotePlain "x" ++ ": invalid syntax") rfl).2⟩

/-- C14: when the rate list is empty after the flags are parsed, `attackCmd` returns
no command and the error "Rate(s): has to be specified and can't be empty", and
leaves the state as it was: the targets source is not opened and no pass is run.
Conversely a successful `rateList.Set` never leaves the list empty: it holds at
least one entry more than before. -/
theorem attackCmd_empty_rates (env : Env)
    (NewTargetsFrom : World → String → Except String (List Target))
    (fl : Flags) (targetsf : String) (w : World) (h : fl.rateFlag = []) :
    (attackCmd env NewTargetsFrom fl targetsf w).1
      = .error "Rate(s): has to be specified and can't be empty" ∧
    (attackCmd env NewTargetsFrom fl targetsf w).2 = w ∧
    (attackCmd env NewTargetsFrom fl targetsf w).2.fileCalls = w.fileCalls ∧
    (attackCmd env NewTargetsFrom fl targetsf w).2.engineCalls = w.engineCalls ∧
    (∀ (quote : String → String) (i : List Nat) (v : String),
      (rateList.Set quote i v).1 = none →
        (rateList.Set quote i v).2 ≠ [] ∧
        i.length + 1 ≤ (rateList.Set quote i v).2.length) := by
  have hrun : attackCmd env NewTargetsFrom fl targetsf w
      = (.error (errRatePrefix ++ "has to be specified and can't be empty"), w) := by
    simp [attackCmd, h]
  rw [hrun]
  refine ⟨rfl, rfl, rfl, rfl, ?_⟩
  intro quote i v hok
  have h2 := (rateListSetLoop_ok quote (strings.Split v ',') i).2 hok
  have hne : strings.Split v ',' ≠ [] := by
    simp only [strings.Split, ne_eq, List.map_eq_nil_iff]
    exact splitOn_ne_nil ',' v.data
  have hlen : 1 ≤ (strings.Split v ',').length := by
    cases hs : strings.Split v ',' with
    | nil => exact absurd hs hne
    | cons _ _ => simp
  have hl : i.length + 1 ≤ (rateList.Set quote i v).2.length := by
    show i.length + 1 ≤ (rateListSetLoop quote (strings.Split v ',') i).2.length
    rw [h2, List.length_append, List.length_map]
    omega
  refine ⟨?_, hl⟩
  intro hnil
  rw [hnil] at hl
  simp at hl

/-- Witness of C14: no rate given, against a state without any call. -/
theorem attackCmd_empty_rates_witness :
    (flagsFor []).rateFlag = [] ∧
    (attackCmd oneHitEnv (fun _ _ => .ok []) (flagsFor []) "stdin" freshWorld).2.fileCalls
      = freshWorld.fileCalls :=
  ⟨rfl,
   (attackCmd_empty_rates oneHitEnv (fun _ _ => .ok []) (flagsFor []) "stdin" freshWorld
      rfl).2.2.1⟩

/-! ## Flag values: the headers -/

theorem Header.get_filter_ne (key k : String) (hk : k ≠ key) :
    ∀ h : Header, Header.get (h.filter (fun p => p.1 ≠ key)) k = Header.get h k
  | [] => rfl
  | (k2, vs) :: rest => by
    have ih := Header.get_filter_ne key k hk rest
    by_cases h2 : k2 = key
    · have hne : ¬ k2 = k := fun e => hk (e.symm.trans h2)
      have hf : ((k2, vs) :: rest).filter (fun p => p.1 ≠ key)
          = rest.filter (fun p => p.1 ≠ key) :=
        List.filter_cons_of_neg (by simp [h2])
      rw [hf, ih]
      simp only [Header.get]
      rw [if_neg hne]
    · have hf : ((k2, vs) :: rest).filter (fun p => p.1 ≠ key)
          = (k2, vs) :: rest.filter (fun p => p.1 ≠ key) :=
        List.filter_cons_of_pos (by simp [h2])
      rw [hf]
      simp only [Header.get]
      by_cases h3 : k2 = k
      · rw [if_pos h3, if_pos h3]
      · rw [if_neg h3, if_neg h3]
        exact ih

theorem Header.get_put_self (h : Header) (key : String) (vs : List String) :
    Header.get (Header.put h key vs) key = vs := by
  simp [Header.put, Header.get]

theorem Header.get_put_ne (h : Header) (key k : String) (vs : List String) (hk : k ≠ key) :
    Header.get (Header.put h key vs) k = Header.get h k := by
  simp only [Header.put, Header.get, hk.symm, if_false]
  exact Header.get_filter_ne key k hk h

/-- Splitting on the colon gives exactly two parts `a` and `b` if and only if the
string is `a`, a colon, `b`, with no colon in `a` or `b`. -/
theorem split_colon_two (v a b : String) :
    strings.Split v ':' = [a, b] ↔
      (v = a ++ ":" ++ b ∧ ':' ∉ a.data ∧ ':' ∉ b.data) := by
  have hdata : v = a ++ ":" ++ b ↔ v.data = a.data ++ ':' :: b.data := by
    constructor
    · intro h
      rw [h, String.data_append, String.data_append]
      simp
    · intro h
      apply String.ext
      rw [h, String.data_append, String.data_append]
      simp
  rw [hdata]
  constructor
  · intro h
    have hs : splitOn ':' v.data = [a.data, b.data] := by
      have := congrArg (List.map String.data) h
      simpa [strings.Split, List.map_map, Function.comp_def] using this
    obtain ⟨ha, hrest⟩ := splitOn_eq_cons ':' v.data a.data [b.data] hs
    rcases hrest with ⟨hnil, _⟩ | ⟨t, hv, ht⟩
    · cases hnil
    · obtain ⟨hb, hrest2⟩ := splitOn_eq_cons ':' t b.data [] ht
      rcases hrest2 with ⟨_, ht2⟩ | ⟨t2, _, ht3⟩
      · exact ⟨by rw [hv, ht2], ha, hb⟩
      · exact absurd ht3 (splitOn_ne_nil ':' t2)
  · rintro ⟨hv, ha, hb⟩
    simp only [strings.Split, hv, splitOn_append ':' b.data a.data ha,
      splitOn_of_not_mem ':' b.data hb, List.map_cons, List.map_nil]

/-! ## The claims on the headers -/

/-- C11, as the claim states it, fails on the key: `http.Header.Add` stores a value
under the canonical form of the key, so `headers.Set("x-test: 1")` on an empty
header stores "1" under "X-Test", and nothing under the trimmed key "x-test". -/
theorem headers_Set_canonical_key :
    headers.Set CanonicalMIMEHeaderKey [] "x-test: 1" = .ok [("X-Test", ["1"])] ∧
    strings.Split "x-test: 1" ':' = ["x-test", " 1"] ∧
    strings.TrimSpace "x-test" = "x-test" ∧
    Header.get [("X-Test", ["1"])] "x-test" = [] ∧
    Header.get [("X-Test", ["1"])] "X-Test" = ["1"] := by
  refine ⟨rfl, rfl, rfl, rfl, rfl⟩

/-- What `headers.Set` does for any canonical form `canon` of the keys: it succeeds
exactly on one colon with non-empty trimmed parts, then adds the trimmed value
after the values stored under `canon` of the trimmed key, leaving the other keys as
they were; otherwise the error is "Header '<v>' has a wrong format". -/
theorem headers_Set_general (canon : String → String) (h : Header) (v : String) :
    ((∃ h2, headers.Set canon h v = .ok h2) ↔
      ∃ a b : String, v = a ++ ":" ++ b ∧ ':' ∉ a.data ∧ ':' ∉ b.data ∧
        strings.TrimSpace a ≠ "" ∧ strings.TrimSpace b ≠ "") ∧
    (∀ a b : String, v = a ++ ":" ++ b → ':' ∉ a.data → ':' ∉ b.data →
      strings.TrimSpace a ≠ "" → strings.TrimSpace b ≠ "" →
      headers.Set canon h v
        = .ok (Header.Add canon h (strings.TrimSpace a) (strings.TrimSpace b)) ∧
      Header.get (Header.Add canon h (strings.TrimSpace a) (strings.TrimSpace b))
          (canon (strings.TrimSpace a))
        = Header.get h (canon (strings.TrimSpace a)) ++ [strings.TrimSpace b] ∧
      ∀ k, k ≠ canon (strings.TrimSpace a) →
        Header.get (Header.Add canon h (strings.TrimSpace a) (strings.TrimSpace b)) k
          = Header.get h k) ∧
    ((¬ ∃ h2, headers.Set canon h v = .ok h2) →
      headers.Set canon h v = .error ("Header '" ++ v ++ "' has a wrong format")) ∧
    headers.Set canon h "X-Test: 1" = .ok (Header.Add canon h "X-Test" "1") ∧
    headers.Set CanonicalMIMEHeaderKey [] "X-Test: 1" = .ok [("X-Test", ["1"])] ∧
    headers.Set canon h "bad" = .error "Header 'bad' has a wrong format" ∧
    headers.Set canon h "  :  " = .error "Header '  :  ' has a wrong format" := by
  have hgood : ∀ a b : String, v = a ++ ":" ++ b → ':' ∉ a.data → ':' ∉ b.data →
      strings.TrimSpace a ≠ "" → strings.TrimSpace b ≠ "" →
      headers.Set canon h v
        = .ok (Header.Add canon h (strings.TrimSpace a) (strings.TrimSpace b)) := by
    intro a b hv ha hb hta htb
    have hs := (split_colon_two v a b).2 ⟨hv, ha, hb⟩
    simp only [headers.Set, hs, hta, htb, or_self, if_false]
  refine ⟨⟨?_, ?_⟩, ?_, ?_, rfl, rfl, rfl, rfl⟩
  · rintro ⟨h2, hok⟩
    unfold headers.Set at hok
    split at hok
    · rename_i p0 p1 hs
      dsimp only at hok
      split_ifs at hok with hbad
      obtain ⟨hv, ha, hb⟩ := (split_colon_two v p0 p1).1 hs
      exact ⟨p0, p1, hv, ha, hb, fun e => hbad (Or.inl e), fun e => hbad (Or.inr e)⟩
    · cases hok
  · rintro ⟨a, b, hv, ha, hb, hta, htb⟩
    exact ⟨_, hgood a b hv ha hb hta htb⟩
  · intro a b hv ha hb hta htb
    refine ⟨hgood a b hv ha hb hta htb, ?_, ?_⟩
    · exact Header.get_put_self _ _ _
    · intro k hk
      exact Header.get_put_ne _ _ _ _ hk
  · intro hfail
    unfold headers.Set at hfail ⊢
    split
    · rename_i p0 p1 hs
      dsimp only at hfail ⊢
      rw [hs] at hfail
      dsimp only at hfail
      split_ifs with hbad
      · rfl
      · rw [if_neg hbad] at hfail
        exact absurd ⟨_, rfl⟩ hfail
    · rfl

/-! ### The canonical form of a key -/

theorem isLower_iff (c : Char) : c.isLower = true ↔ (97 ≤ c.toNat ∧ c.toNat ≤ 122) := by
  simp [Char.isLower, Char.toNat, UInt32.le_def, Fin.le_def]
  exact Iff.rfl

theorem isUpper_iff (c : Char) : c.isUpper = true ↔ (65 ≤ c.toNat ∧ c.toNat ≤ 90) := by
  simp [Char.isUpper, Char.toNat, UInt32.le_def, Fin.le_def]
  exact Iff.rfl

theorem toUpper_eq_hyphen (c : Char) : c.toUpper = '-' ↔ c = '-' := by
  by_cases h : 97 ≤ c.toNat ∧ c.toNat ≤ 122
  · have hne : c ≠ '-' := by
      intro e; rw [e] at h; revert h; decide
    simp only [Char.toUpper, ge_iff_le, h, and_self, if_true, hne, iff_false]
    obtain ⟨h1, h2⟩ := h
    generalize c.toNat = n at h1 h2
    interval_cases n <;> decide
  · simp only [Char.toUpper, ge_iff_le, h, if_false]

theorem toLower_eq_hyphen (c : Char) : c.toLower = '-' ↔ c = '-' := by
  by_cases h : 65 ≤ c.toNat ∧ c.toNat ≤ 90
  · have hne : c ≠ '-' := by
      intro e; rw [e] at h; revert h; decide
    simp only [Char.toLower, ge_iff_le, h, and_self, if_true, hne, iff_false]
    obtain ⟨h1, h2⟩ := h
    generalize c.toNat = n at h1 h2
    interval_cases n <;> decide
  · simp only [Char.toLower, ge_iff_le, h, if_false]

/-- One step of the letter-case loop: the character is upper-cased where an upper
case letter is due, lower-cased elsewhere. -/
theorem canonicalStep (upper : Bool) (c : Char) :
    (if upper && c.isLower then c.toUpper
      else if !upper && c.isUpper then c.toLower else c)
      = if upper = true then c.toUpper else c.toLower := by
  cases upper with
  | true =>
    by_cases hl : c.isLower = true
    · simp [hl]
    · have hn : ¬ (97 ≤ c.toNat ∧ c.toNat ≤ 122) := fun e => hl ((isLower_iff c).2 e)
      simp [hl, Char.toUpper, hn]
  | false =>
    by_cases hu : c.isUpper = true
    · simp [hu]
    · have hn : ¬ (65 ≤ c.toNat ∧ c.toNat ≤ 90) := fun e => hu ((isUpper_iff c).2 e)
      simp [hu, Char.toLower, hn]

theorem canonicalLoop_length : ∀ (cs : List Char) (upper : Bool),
    (canonicalLoop upper cs).length = cs.length
  | [], _ => rfl
  | c :: cs, upper => by
    simp only [canonicalLoop, List.length_cons]
    rw [canonicalLoop_length cs]

/-- The character at each position of the letter-case loop's output: the input
character, upper-cased at the start (when an upper case letter is due there) and
after a hyphen of the input, lower-cased elsewhere. -/
theorem canonicalLoop_getElem? : ∀ (cs : List Char) (upper : Bool) (i : Nat) (c : Char),
    cs[i]? = some c →
    (canonicalLoop upper cs)[i]?
      = some (if (i = 0 ∧ upper = true) ∨ (0 < i ∧ cs[i - 1]? = some '-')
          then c.toUpper else c.toLower)
  | [], _, i, c, h => by simp at h
  | d :: ds, upper, 0, c, h => by
    simp only [List.getElem?_cons_zero, Option.some.injEq] at h
    subst h
    simp only [canonicalLoop, List.getElem?_cons_zero, canonicalStep, true_and,
      Nat.lt_irrefl, false_and, or_false]
  | d :: ds, upper, i + 1, c, h => by
    simp only [List.getElem?_cons_succ] at h
    have ih := canonicalLoop_getElem? ds
      ((if upper = true then d.toUpper else d.toLower) == '-') i c h
    simp only [canonicalLoop, List.getElem?_cons_succ, canonicalStep, ih,
      Nat.add_sub_cancel, Nat.succ_ne_zero, false_and, false_or, Nat.zero_lt_succ, true_and,
      Option.some.injEq]
    have hd : ((if upper = true then d.toUpper else d.toLower) == '-') = true ↔ d = '-' := by
      rw [beq_iff_eq]
      split_ifs
      · exact toUpper_eq_hyphen d
      · exact toLower_eq_hyphen d
    cases i with
    | zero =>
      simp only [true_and, Nat.lt_irrefl, false_and, or_false, List.getElem?_cons_zero,
        Option.some.injEq, hd]
    | succ j =>
      simp only [Nat.succ_ne_zero, false_and, false_or, Nat.zero_lt_succ, true_and,
        Nat.add_sub_cancel, List.getElem?_cons_succ]

/-- C11 (amended): `headers.Set(v)` succeeds if and only if `v` contains exactly one
colon and the parts before and after it are non-empty once their surrounding white
space is trimmed; otherwise the error is "Header '<v>' has a wrong format". On
success the trimmed value is added under the canonical form that `http.Header.Add`
gives the trimmed key, after the values already stored under that canonical key,
the other keys being untouched. The canonical form of a key with a character that
is not allowed in a header key (a space, say) is the key itself; the canonical form
of any other key has, at each position, the character of the key, upper-cased at
the start and after a hyphen, lower-cased elsewhere. So "X-Test: 1" stores "1"
under "X-Test", "x-test" and "accept-ENCODING" become "X-Test" and
"Accept-Encoding", "my key: v" stores "v" under "my key", and "bad" and "  :  "
fail. -/
theorem headers_Set_spec (h : Header) (v : String) :
    ((∃ h2, headers.Set CanonicalMIMEHeaderKey h v = .ok h2) ↔
      ∃ a b : String, v = a ++ ":" ++ b ∧ ':' ∉ a.data ∧ ':' ∉ b.data ∧
        strings.TrimSpace a ≠ "" ∧ strings.TrimSpace b ≠ "") ∧
    (∀ a b : String, v = a ++ ":" ++ b → ':' ∉ a.data → ':' ∉ b.data →
      strings.TrimSpace a ≠ "" → strings.TrimSpace b ≠ "" →
      headers.Set CanonicalMIMEHeaderKey h v
        = .ok (Header.Add CanonicalMIMEHeaderKey h (strings.TrimSpace a)
            (strings.TrimSpace b)) ∧
      Header.get (Header.Add CanonicalMIMEHeaderKey h (strings.TrimSpace a)
            (strings.TrimSpace b)) (CanonicalMIMEHeaderKey (strings.TrimSpace a))
        = Header.get h (CanonicalMIMEHeaderKey (strings.TrimSpace a))
            ++ [strings.TrimSpace b] ∧
      ∀ k, k ≠ CanonicalMIMEHeaderKey (strings.TrimSpace a) →
        Header.get (Header.Add CanonicalMIMEHeaderKey h (strings.TrimSpace a)
            (strings.TrimSpace b)) k = Header.get h k) ∧
    ((¬ ∃ h2, headers.Set CanonicalMIMEHeaderKey h v = .ok h2) →
      headers.Set CanonicalMIMEHeaderKey h v
        = .error ("Header '" ++ v ++ "' has a wrong format")) ∧
    (∀ key : String, (∃ c ∈ key.data, validHeaderFieldByte c = false) →
      CanonicalMIMEHeaderKey key = key) ∧
    (∀ key : String, (∀ c ∈ key.data, validHeaderFieldByte c = true) →
      (CanonicalMIMEHeaderKey key).data.length = key.data.length ∧
      ∀ (i : Nat) (c : Char), key.data[i]? = some c →
        (CanonicalMIMEHeaderKey key).data[i]?
          = some (if i = 0 ∨ key.data[i - 1]? = some '-' then c.toUpper
              else c.toLower)) ∧
    CanonicalMIMEHeaderKey "X-Test" = "X-Test" ∧
    CanonicalMIMEHeaderKey "x-test" = "X-Test" ∧
    CanonicalMIMEHeaderKey "accept-ENCODING" = "Accept-Encoding" ∧
    CanonicalMIMEHeaderKey "my key" = "my key" ∧
    headers.Set CanonicalMIMEHeaderKey [] "X-Test: 1" = .ok [("X-Test", ["1"])] ∧
    headers.Set CanonicalMIMEHeaderKey [] "my key: v" = .ok [("my key", ["v"])] ∧
    headers.Set CanonicalMIMEHeaderKey h "bad" = .error "Header 'bad' has a wrong format" ∧
    headers.Set CanonicalMIMEHeaderKey h "  :  "
      = .error "Header '  :  ' has a wrong format" := by
  obtain ⟨g1, g2, g3, _⟩ := headers_Set_general CanonicalMIMEHeaderKey h v
  refine ⟨g1, g2, g3, ?_, ?_, rfl, rfl, rfl, rfl, rfl, rfl, rfl, rfl⟩
  · rintro key ⟨c, hc, hbad⟩
    have hall : key.data.all validHeaderFieldByte = false := by
      rw [List.all_eq_false]
      exact ⟨c, hc, by simp [hbad]⟩
    simp [CanonicalMIMEHeaderKey, hall]
  · intro key hval
    have hall : key.data.all validHeaderFieldByte = true := by
      rw [List.all_eq_true]
      exact hval
    have hc : CanonicalMIMEHeaderKey key = String.mk (canonicalLoop true key.data) := by
      simp [CanonicalMIMEHeaderKey, hall]
    rw [hc]
    refine ⟨canonicalLoop_length key.data true, ?_⟩
    intro i c hi
    show (canonicalLoop true key.data)[i]? = _
    rw [canonicalLoop_getElem? key.data true i c hi]
    congr 1
    by_cases h0 : i = 0
    · simp [h0]
    · have hpos : 0 < i := Nat.pos_of_ne_zero h0
      simp [h0, hpos]

/-- Witness of C11 (amended): "accept : gzip" set on a header that already holds a
value under "Accept". -/
theorem headers_Set_spec_witness :
    headers.Set CanonicalMIMEHeaderKey [("Accept", ["text/html"])] "accept : gzip"
      = .ok [("Accept", ["text/html", "gzip"])] :=
  ((headers_Set_spec [("Accept", ["text/html"])] "accept : gzip").2.1
    "accept " " gzip" rfl (by decide) (by decide) (by decide) (by decide)).1

end Vegeta
